import Mathlib

/-!
# Robin Hood hash table (`src/hashmap.h`)

A shallow embedding of the class `HashMap<KeyType, ValueType, Hash>` and a
verification of its lookup / insert / erase / resize contract.

Modelling conventions.

* The slot array `Data* data_` is a `List (Data K V)`; `data_[i]` is `slot data_ i`.
  On every table the operations can build, `data_` has exactly `capacity_`
  elements and every index used is below `capacity_`.
* `size_t` quantities are natural numbers: no counter of the class can wrap
  before the slot array exceeds the address space.  The two decrements of the
  class are guarded: `--data_[curr_pos].psl` runs under `psl > 0`, and `--size_`
  runs when a slot is occupied, so that `size_`, the number of occupied slots,
  is positive.
* `capacity_ * LOAD_FACTOR` is computed in `double` by the source.  The test
  `size_ + 1 > capacity_ * 0.8` is embedded over the rationals, as
  `4 * capacity_ < 5 * (size_ + 1)`.  The two agree for every capacity below
  `2 ^ 49`: the `double` nearest to 0.8 exceeds it by the factor `1 + 2 ^ (-54)`,
  so the rounded product is `4 * capacity_ / 5` itself when that is an integer
  and is otherwise within 1/8 of it, hence on the same side of every integer.
* A `while` loop is a function by recursion on a step budget; `none` means the
  budget was exhausted.  Dereferencing a null `data` pointer is `none` too.
* The hasher is a parameter `hash : K → Nat`; key equality is decidable equality.
-/

namespace RobinHood

/-- The struct `HashMap::Data`: one slot of the table.  `data` is the owned
`std::pair<const KeyType, ValueType>*` (`none` for `nullptr`). -/
structure Data (K V : Type) where
  data : Option (K × V) := none
  hash_key : Nat := 0
  psl : Nat := 0
  free : Bool := true
deriving DecidableEq

/-- The data members `data_`, `capacity_`, `size_` of `HashMap`. -/
structure HashMap (K V : Type) where
  data_ : List (Data K V)
  capacity_ : Nat
  size_ : Nat
deriving DecidableEq

/-- The constant `INITIAL_CAPACITY`. -/
def INITIAL_CAPACITY : Nat := 12

/-- The exception `at` throws. -/
inductive Error where
  | out_of_range
deriving DecidableEq

section Defs

variable {K V : Type}

/-- The array read `data_[i]`.  An index past the end of the list reads as a
default slot; no operation makes such a read on a table whose array has
`capacity_` slots. -/
def slot (data_ : List (Data K V)) (i : Nat) : Data K V := data_.getD i {}

/-- The cursor advance `++curr_pos; if (curr_pos == capacity_) curr_pos = 0;`. -/
def advance (capacity_ curr_pos : Nat) : Nat :=
  if curr_pos + 1 = capacity_ then 0 else curr_pos + 1

/-- The constructor `HashMap(Hash hash = Hash())`: twelve default slots, size zero. -/
def HashMap.init : HashMap K V :=
  { data_ := List.replicate INITIAL_CAPACITY {}, capacity_ := INITIAL_CAPACITY, size_ := 0 }

/-- The method `size()`. -/
def HashMap.size (t : HashMap K V) : Nat := t.size_

/-- The method `end()`, as the index of the cursor it returns. -/
def HashMap.end_ (t : HashMap K V) : Nat := t.capacity_

variable [DecidableEq K]

/-- The `while` loop of `find_`, started at `curr_pos`. -/
def find_loop (hash_key : Nat) (key : K) (data_ : List (Data K V)) (capacity_ : Nat) :
    Nat → Nat → Option Nat
  | 0, _ => none
  | fuel + 1, curr_pos =>
    if (slot data_ curr_pos).free then some curr_pos
    else if hash_key ≠ (slot data_ curr_pos).hash_key then
      find_loop hash_key key data_ capacity_ fuel (advance capacity_ curr_pos)
    else
      match (slot data_ curr_pos).data with
      | none => none
      | some kv =>
        if key = kv.1 then some curr_pos
        else find_loop hash_key key data_ capacity_ fuel (advance capacity_ curr_pos)

/-- The method `find_`.  The loop never changes the array, so `capacity_` steps
visit every slot: a run that has not stopped by then never stops. -/
def find_ (hash : K → Nat) (t : HashMap K V) (key : K) : Option Nat :=
  find_loop (hash key) key t.data_ t.capacity_ t.capacity_ (hash key % t.capacity_)

/-- The method `find`, as the index of the cursor it returns. -/
def find (hash : K → Nat) (t : HashMap K V) (key : K) : Option Nat :=
  match find_ hash t key with
  | none => none
  | some curr_pos => if (slot t.data_ curr_pos).free then some t.end_ else some curr_pos

/-- The method `at`: `Except.error` is the thrown `std::out_of_range`. -/
def at_ (hash : K → Nat) (t : HashMap K V) (key : K) : Option (Except Error V) :=
  match find hash t key with
  | none => none
  | some it =>
    if it = t.end_ then some (Except.error Error.out_of_range)
    else
      match (slot t.data_ it).data with
      | none => none
      | some kv => some (Except.ok kv.2)

/-- The test `curr_el.hash_key == data_[curr_pos].hash_key && key == data_[curr_pos].data->first`
of the `insert` loop, evaluated left to right against the slot `s`. -/
def same_key (key : K) (curr_el s : Data K V) : Option Bool :=
  if curr_el.hash_key = s.hash_key then
    match s.data with
    | none => none
    | some kv => some (decide (key = kv.1))
  else some false

/-- The body of `insert` from its `while` loop on (source lines 256-285).
`res` is the pair `(res.first.index_, res.second)`.  Every visited slot is
occupied and stays occupied, so a walk of `capacity_` steps that found no free
slot never finds one. -/
def insert_loop (key : K) : Nat → HashMap K V → Data K V → Nat → Nat × Bool →
    Option (HashMap K V × (Nat × Bool))
  | 0, _, _, _, _ => none
  | fuel + 1, t, curr_el, curr_pos, res =>
    if (slot t.data_ curr_pos).free then
      some ({ t with data_ := t.data_.set curr_pos curr_el, size_ := t.size_ + 1 },
            if res.2 then res else (curr_pos, true))
    else
      match (if res.2 then some false else same_key key curr_el (slot t.data_ curr_pos)) with
      | none => none
      | some true => some (t, (curr_pos, false))
      | some false =>
        if curr_el.psl > (slot t.data_ curr_pos).psl then
          insert_loop key fuel { t with data_ := t.data_.set curr_pos curr_el }
            { slot t.data_ curr_pos with psl := (slot t.data_ curr_pos).psl + 1 }
            (advance t.capacity_ curr_pos) (if res.2 then res else (curr_pos, true))
        else
          insert_loop key fuel t { curr_el with psl := curr_el.psl + 1 }
            (advance t.capacity_ curr_pos) res

/-- The `for` loop of `increase_capacity` over the old array `new_data`, from
index `i`, with `n` indices left; `ins` is the method `insert`. -/
def reinsert (ins : HashMap K V → K × V → Option (HashMap K V × (Nat × Bool)))
    (new_data : List (Data K V)) : Nat → Nat → HashMap K V → Option (HashMap K V)
  | 0, _, t => some t
  | n + 1, i, t =>
    if (slot new_data i).free then reinsert ins new_data n (i + 1) t
    else
      match (slot new_data i).data with
      | none => none
      | some kv =>
        match ins t kv with
        | none => none
        | some r => reinsert ins new_data n (i + 1) r.1

/-- The method `increase_capacity`, with the method `insert` it calls as `ins`. -/
def increase_capacity_with (ins : HashMap K V → K × V → Option (HashMap K V × (Nat × Bool)))
    (t : HashMap K V) : Option (HashMap K V) :=
  reinsert ins t.data_ t.capacity_ 0
    { data_ := List.replicate (2 * t.capacity_ + 1) {}, capacity_ := 2 * t.capacity_ + 1,
      size_ := 0 }

/-- The method `insert`, which is mutually recursive with `increase_capacity`
in the source.  The first argument bounds the number of nested `insert` calls in
progress, this one included; `none` when a call beyond the bound would be made. -/
def insertN (hash : K → Nat) : Nat → HashMap K V → K × V → Option (HashMap K V × (Nat × Bool))
  | 0, _, _ => none
  | depth + 1, t, data =>
    match (if 4 * t.capacity_ < 5 * (t.size_ + 1) then
             increase_capacity_with (insertN hash depth) t else some t) with
    | none => none
    | some t1 =>
      insert_loop data.1 t1.capacity_ t1
        { data := some (data.1, data.2), hash_key := hash data.1, psl := 0, free := false }
        (hash data.1 % t1.capacity_) (0, false)

/-- The method `insert`.  An `insert` called by `increase_capacity` never resizes
again, so two nested calls are all the source can reach: a larger bound gives the
same function (`insertN_depth`). -/
def insert (hash : K → Nat) (t : HashMap K V) (data : K × V) :
    Option (HashMap K V × (Nat × Bool)) :=
  insertN hash 2 t data

/-- The method `increase_capacity`. -/
def increase_capacity (hash : K → Nat) (t : HashMap K V) : Option (HashMap K V) :=
  increase_capacity_with (insert hash) t

/-- The call `std::swap(data_[i], data_[j])`. -/
def swap_slots (data_ : List (Data K V)) (i j : Nat) : List (Data K V) :=
  (data_.set i (slot data_ j)).set j (slot data_ i)

/-- The statement `--data_[i].psl`. -/
def dec_psl (data_ : List (Data K V)) (i : Nat) : List (Data K V) :=
  data_.set i { slot data_ i with psl := (slot data_ i).psl - 1 }

/-- The `while` loop of `erase`: the backward shift of the gap at `curr_pos`. -/
def erase_loop (capacity_ : Nat) : Nat → List (Data K V) → Nat → Option (List (Data K V))
  | 0, _, _ => none
  | fuel + 1, data_, curr_pos =>
    if (slot data_ ((curr_pos + 1) % capacity_)).psl > 0 then
      erase_loop capacity_ fuel
        (dec_psl (swap_slots data_ curr_pos ((curr_pos + 1) % capacity_)) curr_pos)
        (advance capacity_ curr_pos)
    else some data_

/-- The method `erase`.  The backward shift is given `capacity_` steps; `none`
means it needed more. -/
def erase (hash : K → Nat) (t : HashMap K V) (key : K) : Option (HashMap K V) :=
  match find_ hash t key with
  | none => none
  | some curr_pos =>
    if (slot t.data_ curr_pos).free then some t
    else
      match erase_loop t.capacity_ t.capacity_
          (t.data_.set curr_pos { slot t.data_ curr_pos with free := true, psl := 0 })
          curr_pos with
      | none => none
      | some data2 => some { t with data_ := data2, size_ := t.size_ - 1 }

/-- The method `operator[]`: the table afterwards and the index of the slot whose
value the returned reference designates. -/
def index [Inhabited V] (hash : K → Nat) (t : HashMap K V) (key : K) :
    Option (HashMap K V × Nat) :=
  match find_ hash t key with
  | none => none
  | some curr_pos =>
    if (slot t.data_ curr_pos).free then
      match insert hash t (key, default) with
      | none => none
      | some r => some (r.1, r.2.1)
    else some (t, curr_pos)

/-- The loop `for (; min_el < capacity_ && data_[min_el].free; ++min_el) {}` of
`begin()`, which is also the `while` loop of `iterator::operator++`, from the
index `i`.  The index only grows, so a budget of `capacity_ - i` steps is all
the loop can use. -/
def skip_free (data_ : List (Data K V)) (capacity_ : Nat) : Nat → Nat → Nat
  | 0, i => i
  | fuel + 1, i =>
    if i < capacity_ ∧ (slot data_ i).free = true then skip_free data_ capacity_ fuel (i + 1)
    else i

/-- The method `begin()`, as the index of the cursor it returns.  A cursor of the
table `t` is its `index_`: its `data_` and `capacity_` are those of `t`. -/
def begin_ (t : HashMap K V) : Nat := skip_free t.data_ t.capacity_ t.capacity_ 0

/-- The method `iterator::operator++` on the cursor of `t` at `index_`. -/
def iterator_next (t : HashMap K V) (index_ : Nat) : Nat :=
  skip_free t.data_ t.capacity_ (t.capacity_ - (index_ + 1)) (index_ + 1)

/-- The method `iterator::operator*` on the cursor of `t` at `index_`: the pair
`*data_[index_].data`. -/
def iterator_deref (t : HashMap K V) (index_ : Nat) : Option (K × V) :=
  (slot t.data_ index_).data

/-- The traversal `for (it = ...; it != end(); ++it)` from the cursor at `index_`,
collecting `(it.index_, *it)`.  Each `++` moves the cursor forward, so the
traversal from `begin()` makes at most `capacity_ + 1` comparisons with `end()`. -/
def traverse_from (t : HashMap K V) : Nat → Nat → Option (List (Nat × (K × V)))
  | 0, _ => none
  | fuel + 1, index_ =>
    if index_ = t.end_ then some []
    else
      match iterator_deref t index_ with
      | none => none
      | some kv =>
        match traverse_from t fuel (iterator_next t index_) with
        | none => none
        | some rest => some ((index_, kv) :: rest)

/-- The full traversal from `begin()` to `end()`. -/
def traverse (t : HashMap K V) : Option (List (Nat × (K × V))) :=
  traverse_from t (t.capacity_ + 1) (begin_ t)

/-- The method `insert` under a monitor of its load-factor test (source line
249): `none` when the test fires, and `insert` otherwise. -/
def insert_fit (hash : K → Nat) (t : HashMap K V) (data : K × V) :
    Option (HashMap K V × (Nat × Bool)) :=
  if 4 * t.capacity_ < 5 * (t.size_ + 1) then none else insert hash t data

/-- The method `clear`. -/
def clear (_t : HashMap K V) : HashMap K V :=
  { data_ := List.replicate INITIAL_CAPACITY {}, capacity_ := INITIAL_CAPACITY, size_ := 0 }

/-- Slot `i` of the array `a` of `c` slots is occupied and holds key `k` with value `v`. -/
def Holds (c : Nat) (a : List (Data K V)) (i : Nat) (k : K) (v : V) : Prop :=
  i < c ∧ (slot a i).free = false ∧ (slot a i).data = some (k, v)

/-- Slot `i` of the table is occupied and holds key `k` with value `v`. -/
def HashMap.HoldsAt (t : HashMap K V) (i : Nat) (k : K) (v : V) : Prop :=
  Holds t.capacity_ t.data_ i k v

/-- Some occupied slot of the table holds the pair `(k, v)`. -/
def HashMap.Stored (t : HashMap K V) (k : K) (v : V) : Prop :=
  ∃ i, t.HoldsAt i k v

/-- Some occupied slot of the table holds the key `k`. -/
def HashMap.Present (t : HashMap K V) (k : K) : Prop :=
  ∃ i, i < t.capacity_ ∧ (slot t.data_ i).free = false ∧
    (slot t.data_ i).data.map Prod.fst = some k

instance [DecidableEq K] [DecidableEq V] (c : Nat) (a : List (Data K V)) (i : Nat) (k : K)
    (v : V) : Decidable (Holds c a i k v) := by
  unfold Holds
  infer_instance

instance [DecidableEq K] [DecidableEq V] (t : HashMap K V) (k : K) (v : V) :
    Decidable (t.Stored k v) := by
  unfold HashMap.Stored HashMap.HoldsAt Holds
  infer_instance

instance [DecidableEq K] (t : HashMap K V) (k : K) : Decidable (t.Present k) := by
  unfold HashMap.Present
  infer_instance

/-- The number of occupied slots of an array. -/
def occupied (a : List (Data K V)) : Nat := a.countP (fun s => !s.free)

/-- Consistency of the slot `s` stored at index `i`: a free slot has `psl = 0`;
an occupied slot owns a pair, caches the hash of its key, and sits `psl` steps
(cyclically, `psl < c`) after the home slot of its key. -/
def WfSlot (hash : K → Nat) (c i : Nat) (s : Data K V) : Prop :=
  (s.free = true → s.psl = 0) ∧
  (s.free = false →
    ∃ k v, s.data = some (k, v) ∧ s.hash_key = hash k ∧ s.psl < c ∧ (hash k + s.psl) % c = i)

/-- The invariant of the slot array: length, slot consistency, the Robin Hood
ordering between each slot and its cyclic successor, and uniqueness of keys. -/
structure AInv (hash : K → Nat) (c : Nat) (a : List (Data K V)) : Prop where
  len : a.length = c
  wf : ∀ i, i < c → WfSlot hash c i (slot a i)
  rh : ∀ i, i < c → 0 < (slot a (advance c i)).psl →
    (slot a i).free = false ∧ (slot a (advance c i)).psl ≤ (slot a i).psl + 1
  inj : ∀ i j k v w, Holds c a i k v → Holds c a j k w → i = j

/-- The loop invariant of the walk of `insert`: the carried entry `el`, holding
the pair `(ck, cv)`, stands at `pos`, the `j`-th slot probed from the home
slot `h0 % c` of the inserted key; `el.psl` is its distance from its own home,
the slot before `pos` justifies that distance, `ck` is stored nowhere in the
array, and a free slot lies ahead within the first `c` probes. -/
structure Carry (hash : K → Nat) (c : Nat) (a : List (Data K V)) (h0 : Nat) (el : Data K V)
    (pos j : Nat) (ck : K) (cv : V) : Prop where
  el_free : el.free = false
  el_data : el.data = some (ck, cv)
  el_hash : el.hash_key = hash ck
  el_home : (hash ck + el.psl) % c = pos
  el_le : el.psl ≤ j
  pos_eq : pos = (h0 + j) % c
  pred : el.psl = 0 ∨
    ∃ q, q < c ∧ advance c q = pos ∧ (slot a q).free = false ∧ el.psl ≤ (slot a q).psl + 1
  fresh : ∀ i v, ¬ Holds c a i ck v
  gap : ∃ jf, j ≤ jf ∧ jf < c ∧ (slot a ((h0 + jf) % c)).free = true

/-- The loop invariant of the backward shift of `erase`: the gap stands at
`pos`, the `j`-th slot after the erased slot `p0`; the array invariant holds
except for the Robin Hood ordering across the gap; `g` is the `psl` the entry
last moved out of `pos` had there, which bounds the next entry and is
justified by the slot before `pos`; a free slot lies further ahead. -/
structure Gap (hash : K → Nat) (c : Nat) (a : List (Data K V)) (p0 pos j g : Nat) : Prop where
  len : a.length = c
  wf : ∀ i, i < c → WfSlot hash c i (slot a i)
  pos_eq : pos = (p0 + j) % c
  hole : (slot a pos).free = true
  rh : ∀ i, i < c → i ≠ pos → 0 < (slot a (advance c i)).psl →
    (slot a i).free = false ∧ (slot a (advance c i)).psl ≤ (slot a i).psl + 1
  next_le : (slot a (advance c pos)).psl ≤ g + 1
  pred : g = 0 ∨
    ∃ q, q < c ∧ advance c q = pos ∧ (slot a q).free = false ∧ g ≤ (slot a q).psl + 1
  inj : ∀ i j k v w, Holds c a i k v → Holds c a j k w → i = j
  ahead : ∃ jf, j < jf ∧ jf < c ∧ (slot a ((p0 + jf) % c)).free = true

/-- The invariant of the table. -/
structure Inv (hash : K → Nat) (t : HashMap K V) : Prop where
  arr : AInv hash t.capacity_ t.data_
  cap_pos : 0 < t.capacity_
  load : 5 * t.size_ ≤ 4 * t.capacity_
  cnt : occupied t.data_ = t.size_

/-- The tables obtained from a freshly constructed one by `insert`, `erase`,
`operator[]` and `clear` calls under the hasher `hash`. -/
inductive Reachable [Inhabited V] (hash : K → Nat) : HashMap K V → Prop
  | init : Reachable hash HashMap.init
  | insert (t : HashMap K V) (data : K × V) (r : HashMap K V × (Nat × Bool)) :
      Reachable hash t → insert hash t data = some r → Reachable hash r.1
  | erase (t : HashMap K V) (key : K) (t1 : HashMap K V) :
      Reachable hash t → erase hash t key = some t1 → Reachable hash t1
  | index (t : HashMap K V) (key : K) (r : HashMap K V × Nat) :
      Reachable hash t → index hash t key = some r → Reachable hash r.1
  | clear (t : HashMap K V) : Reachable hash t → Reachable hash (clear t)

/-- The tables obtained from a freshly constructed one by `insert`, `erase`,
`operator[]` and `clear` calls, each with the set of pairs inserted and not
erased so far, as a partial map: `insert` and `operator[]` add a pair for a key
that has none, `erase` removes the pair of its key, `clear` removes all. -/
inductive Tracked [Inhabited V] (hash : K → Nat) : HashMap K V → (K → Option V) → Prop
  | init : Tracked hash HashMap.init (fun _ => none)
  | insert (t : HashMap K V) (m : K → Option V) (data : K × V)
      (r : HashMap K V × (Nat × Bool)) :
      Tracked hash t m → insert hash t data = some r →
      Tracked hash r.1 (if (m data.1).isSome then m else Function.update m data.1 (some data.2))
  | erase (t : HashMap K V) (m : K → Option V) (key : K) (t1 : HashMap K V) :
      Tracked hash t m → erase hash t key = some t1 →
      Tracked hash t1 (Function.update m key none)
  | index (t : HashMap K V) (m : K → Option V) (key : K) (r : HashMap K V × Nat) :
      Tracked hash t m → index hash t key = some r →
      Tracked hash r.1 (if (m key).isSome then m else Function.update m key (some default))
  | clear (t : HashMap K V) (m : K → Option V) :
      Tracked hash t m → Tracked hash (clear t) (fun _ => none)

/-- A run of `insert` calls, left to right, from the table `t`. -/
def insert_all (hash : K → Nat) : List (K × V) → HashMap K V → Option (HashMap K V)
  | [], t => some t
  | kv :: rest, t =>
    match insert hash t kv with
    | none => none
    | some r => insert_all hash rest r.1

end Defs

/-! ## Concrete tables over integer keys -/

/-- The hasher of the concrete scenarios: `std::hash` on integers, the identity. -/
def id_hash : Nat → Nat := fun k => k

/-- The table after `insert({1, 10})` on a fresh table. -/
def one_key : HashMap Nat Nat :=
  { data_ := {} :: ⟨some (1, 10), 1, 0, false⟩ :: List.replicate 10 {},
    capacity_ := 12, size_ := 1 }

/-- The table after `insert({1, 10})`, `insert({2, 20})` on a fresh table. -/
def two_keys : HashMap Nat Nat :=
  { data_ := {} :: ⟨some (1, 10), 1, 0, false⟩ :: ⟨some (2, 20), 2, 0, false⟩ ::
      List.replicate 9 {},
    capacity_ := 12, size_ := 2 }

/-- The table after `insert({1, 10})`, `insert({2, 20})`, `insert({13, 30})` on a
fresh table: key 13 has home slot 1, took slot 2 and sent key 2 on to slot 3. -/
def three_keys : HashMap Nat Nat :=
  { data_ := {} :: ⟨some (1, 10), 1, 0, false⟩ :: ⟨some (13, 30), 13, 1, false⟩ ::
      ⟨some (2, 20), 2, 1, false⟩ :: List.replicate 8 {},
    capacity_ := 12, size_ := 3 }

/-- The occupied slot of the key `k` with value `v` at its home slot. -/
def entry (k v : Nat) : Data Nat Nat := ⟨some (k, v), k, 0, false⟩

/-- The pairs `(k, 10 * k)` for `k = 1, ..., n`. -/
def scenario_pairs (n : Nat) : List (Nat × Nat) :=
  (List.range n).map (fun i => (i + 1, 10 * (i + 1)))

/-- The table after `insert({k, 10 * k})` for `k = 1, ..., 9` on a fresh table:
nine keys at capacity 12. -/
def nine_keys : HashMap Nat Nat :=
  { data_ := {} :: (scenario_pairs 9).map (fun kv => entry kv.1 kv.2) ++ List.replicate 2 {},
    capacity_ := 12, size_ := 9 }

/-- The table `nine_keys` after a resize: the same nine keys at capacity 25. -/
def nine_keys_grown : HashMap Nat Nat :=
  { data_ := {} :: (scenario_pairs 9).map (fun kv => entry kv.1 kv.2) ++ List.replicate 15 {},
    capacity_ := 25, size_ := 9 }

/-- The table after `insert({k, 10 * k})` for `k = 1, ..., 10` on a fresh table. -/
def ten_keys : HashMap Nat Nat :=
  { data_ := {} :: (scenario_pairs 10).map (fun kv => entry kv.1 kv.2) ++ List.replicate 14 {},
    capacity_ := 25, size_ := 10 }

/-- The table `ten_keys` after `erase(5)`: slot 5 is free and keeps its old pair. -/
def ten_keys_erased : HashMap Nat Nat :=
  { data_ := ten_keys.data_.set 5 ⟨some (5, 50), 5, 0, true⟩, capacity_ := 25, size_ := 9 }

/-- The table `ten_keys_erased` after `insert({5, 99})`. -/
def ten_keys_again : HashMap Nat Nat :=
  { data_ := ten_keys.data_.set 5 (entry 5 99), capacity_ := 25, size_ := 10 }

end RobinHood

namespace RobinHood

section Basic

variable {K V : Type}

/-! ## Array reads and writes -/

theorem slot_set_eq (a : List (Data K V)) (i : Nat) (x : Data K V) (h : i < a.length) :
    slot (a.set i x) i = x := by
  unfold slot
  induction a generalizing i with
  | nil => simp at h
  | cons y ys ih =>
    cases i with
    | zero => simp
    | succ n =>
      have hn : n < ys.length := by simpa using h
      simpa using ih n hn

theorem slot_set_ne (a : List (Data K V)) (i j : Nat) (x : Data K V) (h : i ≠ j) :
    slot (a.set i x) j = slot a j := by
  unfold slot
  induction a generalizing i j with
  | nil => simp
  | cons y ys ih =>
    cases i with
    | zero =>
      cases j with
      | zero => exact absurd rfl h
      | succ m => simp
    | succ n =>
      cases j with
      | zero => simp
      | succ m =>
        have hnm : n ≠ m := fun e => h (by rw [e])
        simpa using ih n m hnm

theorem slot_replicate (n i : Nat) : slot (List.replicate n ({} : Data K V)) i = {} := by
  unfold slot
  induction n generalizing i with
  | zero => simp
  | succ m ih =>
    cases i with
    | zero => simp [List.replicate_succ]
    | succ j => simp [List.replicate_succ, ih j]

theorem slot_mem (a : List (Data K V)) (i : Nat) (h : i < a.length) : slot a i ∈ a := by
  unfold slot
  induction a generalizing i with
  | nil => simp at h
  | cons y ys ih =>
    cases i with
    | zero => simp
    | succ n =>
      have hn : n < ys.length := by simpa using h
      have := ih n hn
      simp only [List.getD_cons_succ]
      exact List.mem_cons_of_mem _ this

theorem countP_set (p : Data K V → Bool) (a : List (Data K V)) (i : Nat) (x : Data K V)
    (h : i < a.length) :
    (a.set i x).countP p + (if p (slot a i) then 1 else 0)
      = a.countP p + (if p x then 1 else 0) := by
  unfold slot
  induction a generalizing i with
  | nil => simp at h
  | cons y ys ih =>
    cases i with
    | zero =>
      simp only [List.set_cons_zero, List.countP_cons, List.getD_cons_zero]
      omega
    | succ n =>
      have hn : n < ys.length := by simpa using h
      have := ih n hn
      simp only [List.set_cons_succ, List.countP_cons, List.getD_cons_succ]
      omega

theorem exists_free (a : List (Data K V)) (h : occupied a < a.length) :
    ∃ f, f < a.length ∧ (slot a f).free = true := by
  unfold occupied at h
  by_contra hcon
  push_neg at hcon
  have hall : ∀ s ∈ a, (fun s : Data K V => !s.free) s = true := by
    intro s hs
    obtain ⟨i, hi, rfl⟩ := List.getElem_of_mem hs
    have h1 := hcon i hi
    have h2 : slot a i = a[i] := by
      unfold slot
      simp [List.getD_eq_getElem?_getD, List.getElem?_eq_getElem hi]
    rw [h2] at h1
    simpa using h1
  have := List.countP_eq_length.2 hall
  omega

/-! ## Cyclic index arithmetic -/

theorem advance_lt {c p : Nat} (hp : p < c) : advance c p < c := by
  unfold advance
  split <;> omega

theorem advance_mod {c : Nat} (hc : 0 < c) (x : Nat) : advance c (x % c) = (x + 1) % c := by
  unfold advance
  have hlt := Nat.mod_lt x hc
  have key : (x + 1) % c = (x % c + 1) % c := by
    rw [Nat.add_mod, Nat.add_mod (x % c) 1 c, Nat.mod_mod]
  rw [key]
  split
  · rename_i h
    rw [h, Nat.mod_self]
  · rename_i h
    exact (Nat.mod_eq_of_lt (show x % c + 1 < c by omega)).symm

theorem advance_eq_mod {c p : Nat} (hp : p < c) : (p + 1) % c = advance c p := by
  have h := advance_mod (Nat.lt_of_le_of_lt (Nat.zero_le p) hp) p
  rw [Nat.mod_eq_of_lt hp] at h
  exact h.symm

theorem advance_inj {c p q : Nat} (h : advance c p = advance c q) :
    p = q := by
  unfold advance at h
  split at h <;> split at h <;> omega

theorem advance_ne_self {c p : Nat} (hc : 2 ≤ c) : advance c p ≠ p := by
  unfold advance
  split <;> omega

theorem advance_advance_ne {c p : Nat} (hc : 3 ≤ c) : advance c (advance c p) ≠ p := by
  unfold advance
  split <;> split <;> omega

theorem exists_pred {c p : Nat} (hp : p < c) : ∃ q, q < c ∧ advance c q = p := by
  unfold advance
  by_cases h0 : p = 0
  · refine ⟨c - 1, by omega, ?_⟩
    rw [if_pos (by omega)]; exact h0.symm
  · refine ⟨p - 1, by omega, ?_⟩
    rw [if_neg (by omega)]; omega

theorem mod_add_inj {c h i j : Nat} (hi : i < c) (hj : j < c)
    (e : (h + i) % c = (h + j) % c) : i = j := by
  have h1 : (h + i) ≡ (h + j) [MOD c] := e
  have h2 : i ≡ j [MOD c] := Nat.ModEq.add_left_cancel' h h1
  exact Nat.ModEq.eq_of_lt_of_lt h2 hi hj

theorem exists_offset {c f : Nat} (h : Nat) (hf : f < c) : ∃ j, j < c ∧ (h + j) % c = f := by
  have hc : 0 < c := by omega
  have hh := Nat.mod_lt h hc
  refine ⟨(f + c - h % c) % c, Nat.mod_lt _ hc, ?_⟩
  have hdm := Nat.div_add_mod h c
  have e1 : (h + (f + c - h % c) % c) % c = (h + (f + c - h % c)) % c := by
    rw [Nat.add_mod, Nat.mod_mod, ← Nat.add_mod]
  have e2 : h + (f + c - h % c) = f + c * (h / c + 1) := by
    rw [Nat.mul_add, Nat.mul_one]
    generalize c * (h / c) = m at hdm
    omega
  rw [e1, e2, Nat.add_mul_mod_self_left, Nat.mod_eq_of_lt hf]

theorem mod_succ_eq {c : Nat} (hc : 0 < c) (h j : Nat) :
    advance c ((h + j) % c) = (h + (j + 1)) % c := by
  rw [advance_mod hc]; rfl

end Basic

end RobinHood

namespace RobinHood

section Lookup

variable {K V : Type} {hash : K → Nat} {c : Nat} {a : List (Data K V)}

/-! ## Consequences of the array invariant -/

theorem AInv.key_info (H : AInv hash c a) {p : Nat} {k : K} {v : V} (hp : Holds c a p k v) :
    (slot a p).hash_key = hash k ∧ (slot a p).psl < c ∧ (hash k + (slot a p).psl) % c = p := by
  obtain ⟨hpc, hfree, hdata⟩ := hp
  obtain ⟨k1, v1, hd, hh, hlt, hmod⟩ := (H.wf p hpc).2 hfree
  rw [hdata] at hd
  have hk : k = k1 := by injection hd with e; exact congrArg Prod.fst e
  subst hk
  exact ⟨hh, hlt, hmod⟩

theorem AInv.holds_of_occupied (H : AInv hash c a) {p : Nat} (hpc : p < c)
    (hfree : (slot a p).free = false) : ∃ k v, Holds c a p k v := by
  obtain ⟨k1, v1, hd, _, _, _⟩ := (H.wf p hpc).2 hfree
  exact ⟨k1, v1, hpc, hfree, hd⟩

/-- Every slot between the home slot of a stored key and the key's slot is
occupied, by an entry at least as far from its own home. -/
theorem AInv.chain (H : AInv hash c a) (hc : 0 < c) {p : Nat} {k : K} {v : V}
    (hp : Holds c a p k v) :
    ∀ m j, j + m = (slot a p).psl →
      (slot a ((hash k + j) % c)).free = false ∧ j ≤ (slot a ((hash k + j) % c)).psl := by
  obtain ⟨_, _, hmod⟩ := H.key_info hp
  intro m
  induction m with
  | zero =>
    intro j hj
    have hj2 : j = (slot a p).psl := by omega
    rw [hj2, hmod]
    exact ⟨hp.2.1, le_refl _⟩
  | succ m ih =>
    intro j hj
    obtain ⟨_, h2⟩ := ih (j + 1) (by omega)
    have hstep := mod_succ_eq hc (hash k) j
    have hrh := H.rh ((hash k + j) % c) (Nat.mod_lt _ hc)
    rw [hstep] at hrh
    obtain ⟨r1, r2⟩ := hrh (by omega)
    exact ⟨r1, by omega⟩

theorem Inv.size_lt {t : HashMap K V} (H : Inv hash t) : t.size_ < t.capacity_ := by
  have h1 := H.load
  have h2 := H.cap_pos
  omega

theorem Inv.free_slot {t : HashMap K V} (H : Inv hash t) :
    ∃ f, f < t.capacity_ ∧ (slot t.data_ f).free = true := by
  have h := RobinHood.exists_free t.data_ (by rw [H.cnt, H.arr.len]; exact H.size_lt)
  rw [H.arr.len] at h
  exact h

theorem HashMap.present_iff {t : HashMap K V} {k : K} : t.Present k ↔ ∃ v, t.Stored k v := by
  constructor
  · rintro ⟨i, h1, h2, h3⟩
    cases hd : (slot t.data_ i).data with
    | none => rw [hd] at h3; cases h3
    | some kv =>
      rw [hd] at h3
      obtain ⟨k1, v1⟩ := kv
      have hk : k1 = k := by simpa using h3
      subst hk
      exact ⟨v1, i, h1, h2, hd⟩
  · rintro ⟨v, i, h1, h2, h3⟩
    exact ⟨i, h1, h2, by rw [h3]; rfl⟩

theorem HashMap.not_present_iff {t : HashMap K V} {k : K} :
    ¬ t.Present k ↔ ∀ i v, ¬ Holds t.capacity_ t.data_ i k v := by
  rw [HashMap.present_iff]
  constructor
  · intro h i v hi
    exact h ⟨v, i, hi⟩
  · rintro h ⟨v, i, hi⟩
    exact h i v hi

/-! ## The probe of `find_` -/

variable [DecidableEq K]

theorem find_loop_present (H : AInv hash c a) (hc : 0 < c) {p : Nat} {k : K} {v : V}
    (hp : Holds c a p k v) :
    ∀ m j fuel, j + m = (slot a p).psl → m < fuel →
      find_loop (hash k) k a c fuel ((hash k + j) % c) = some p := by
  obtain ⟨hhash, hlt, hmod⟩ := H.key_info hp
  intro m
  induction m with
  | zero =>
    intro j fuel hj hfuel
    have hj2 : j = (slot a p).psl := by omega
    obtain ⟨f, rfl⟩ : ∃ f, fuel = f + 1 := ⟨fuel - 1, by omega⟩
    rw [hj2, hmod]
    unfold find_loop
    rw [if_neg (by simp [hp.2.1]), if_neg (by simp [hhash]), hp.2.2]
    simp
  | succ m ih =>
    intro j fuel hj hfuel
    obtain ⟨f, rfl⟩ : ∃ f, fuel = f + 1 := ⟨fuel - 1, by omega⟩
    obtain ⟨hocc, _⟩ := H.chain hc hp (m + 1) j hj
    have hq : (hash k + j) % c < c := Nat.mod_lt _ hc
    obtain ⟨k1, v1, hq1⟩ := H.holds_of_occupied hq hocc
    have hne : k ≠ k1 := by
      intro e
      subst e
      have := H.inj _ _ _ _ _ hq1 hp
      rw [← hmod] at this
      have := mod_add_inj (by omega) hlt this
      omega
    have hrec := ih (j + 1) f (by omega) (by omega)
    rw [← mod_succ_eq hc] at hrec
    unfold find_loop
    rw [if_neg (by simp [hocc])]
    split
    · exact hrec
    · rw [hq1.2.2]
      simp only [if_neg hne]
      exact hrec

theorem find_loop_absent (H : AInv hash c a) (hc : 0 < c) {k : K}
    (habs : ∀ i v, ¬ Holds c a i k v) :
    ∀ m j fuel, (slot a ((hash k + (j + m)) % c)).free = true → m < fuel →
      ∃ p, find_loop (hash k) k a c fuel ((hash k + j) % c) = some p ∧ p < c ∧
        (slot a p).free = true := by
  intro m
  induction m with
  | zero =>
    intro j fuel hfree hfuel
    obtain ⟨f, rfl⟩ : ∃ f, fuel = f + 1 := ⟨fuel - 1, by omega⟩
    rw [Nat.add_zero] at hfree
    refine ⟨(hash k + j) % c, ?_, Nat.mod_lt _ hc, hfree⟩
    unfold find_loop
    rw [if_pos hfree]
  | succ m ih =>
    intro j fuel hfree hfuel
    obtain ⟨f, rfl⟩ : ∃ f, fuel = f + 1 := ⟨fuel - 1, by omega⟩
    have hq : (hash k + j) % c < c := Nat.mod_lt _ hc
    by_cases hocc : (slot a ((hash k + j) % c)).free = true
    · refine ⟨(hash k + j) % c, ?_, hq, hocc⟩
      unfold find_loop
      rw [if_pos hocc]
    · have hocc2 : (slot a ((hash k + j) % c)).free = false := by simpa using hocc
      obtain ⟨k1, v1, hq1⟩ := H.holds_of_occupied hq hocc2
      have hne : k ≠ k1 := by
        intro e
        subst e
        exact habs _ _ hq1
      have hrec := ih (j + 1) f (by rw [show j + 1 + m = j + (m + 1) by omega]; exact hfree)
        (by omega)
      rw [← mod_succ_eq hc] at hrec
      unfold find_loop
      rw [if_neg hocc]
      split
      · exact hrec
      · rw [hq1.2.2]
        simp only [if_neg hne]
        exact hrec

/-! ## Lookups on a table satisfying the invariant -/

theorem find__present {t : HashMap K V} (H : Inv hash t) {p : Nat} {k : K} {v : V}
    (hp : t.HoldsAt p k v) : find_ hash t k = some p := by
  unfold find_
  have hlt := (H.arr.key_info hp).2.1
  have := find_loop_present H.arr H.cap_pos hp (slot t.data_ p).psl 0 t.capacity_ (by omega) hlt
  simpa using this

theorem find__absent {t : HashMap K V} (H : Inv hash t) {k : K} (habs : ¬ t.Present k) :
    ∃ p, find_ hash t k = some p ∧ p < t.capacity_ ∧ (slot t.data_ p).free = true := by
  unfold find_
  obtain ⟨f, hf, hfree⟩ := H.free_slot
  obtain ⟨j, hj, hjf⟩ := exists_offset (hash k) hf
  have habs2 := HashMap.not_present_iff.1 habs
  have := find_loop_absent H.arr H.cap_pos habs2 j 0 t.capacity_
    (by rw [Nat.zero_add, hjf]; exact hfree) hj
  simpa using this

theorem find_present {t : HashMap K V} (H : Inv hash t) {p : Nat} {k : K} {v : V}
    (hp : t.HoldsAt p k v) : find hash t k = some p := by
  unfold find
  rw [find__present H hp]
  simp [hp.2.1]

theorem find_absent {t : HashMap K V} (H : Inv hash t) {k : K} (habs : ¬ t.Present k) :
    find hash t k = some t.end_ := by
  unfold find
  obtain ⟨p, h1, _, h3⟩ := find__absent H habs
  rw [h1]
  simp [h3]

theorem at_present {t : HashMap K V} (H : Inv hash t) {p : Nat} {k : K} {v : V}
    (hp : t.HoldsAt p k v) : at_ hash t k = some (Except.ok v) := by
  unfold at_
  rw [find_present H hp]
  have hne : p ≠ t.end_ := by
    have := hp.1
    unfold HashMap.end_
    omega
  simp [hne, hp.2.2]

theorem at_absent {t : HashMap K V} (H : Inv hash t) {k : K} (habs : ¬ t.Present k) :
    at_ hash t k = some (Except.error Error.out_of_range) := by
  unfold at_
  rw [find_absent H habs]
  simp

end Lookup

end RobinHood

namespace RobinHood

section InsertLoop

variable {K V : Type} {hash : K → Nat} {c : Nat} {a : List (Data K V)}

/-! ## Writing one slot -/

theorem Holds_set_ne {pos i : Nat} (x : Data K V) (h : pos ≠ i) (k : K) (v : V) :
    Holds c (a.set pos x) i k v ↔ Holds c a i k v := by
  unfold Holds
  rw [slot_set_ne a pos i x h]

theorem Holds_set_eq {pos : Nat} (x : Data K V) (hlen : a.length = c) (hpos : pos < c)
    (k : K) (v : V) :
    Holds c (a.set pos x) pos k v ↔ x.free = false ∧ x.data = some (k, v) := by
  unfold Holds
  rw [slot_set_eq a pos x (by omega)]
  constructor
  · rintro ⟨_, h1, h2⟩; exact ⟨h1, h2⟩
  · rintro ⟨h1, h2⟩; exact ⟨hpos, h1, h2⟩

/-- Writing an occupied entry with a fresh key into slot `pos` keeps the array
invariant, provided its `psl` is right for `pos`, justified by the slot before
`pos`, and not below the `psl` of the entry it replaces. -/
theorem AInv.set_entry (H : AInv hash c a) {pos : Nat} {el : Data K V} {ck : K} {cv : V}
    (hpos : pos < c) (hfree : el.free = false) (hdata : el.data = some (ck, cv))
    (hhash : el.hash_key = hash ck) (hlt : el.psl < c) (hhome : (hash ck + el.psl) % c = pos)
    (hpred : el.psl = 0 ∨
      ∃ q, q < c ∧ advance c q = pos ∧ (slot a q).free = false ∧ el.psl ≤ (slot a q).psl + 1)
    (hfresh : ∀ i v, ¬ Holds c a i ck v)
    (hle : (slot a pos).free = false → (slot a pos).psl ≤ el.psl) :
    AInv hash c (a.set pos el) := by
  have hlen := H.len
  refine ⟨by rw [List.length_set]; exact hlen, ?_, ?_, ?_⟩
  · intro i hi
    by_cases e : pos = i
    · subst e
      rw [slot_set_eq a pos el (by omega)]
      exact ⟨fun h => (by rw [hfree] at h; cases h), fun _ => ⟨ck, cv, hdata, hhash, hlt, hhome⟩⟩
    · rw [slot_set_ne a pos i el e]
      exact H.wf i hi
  · intro i hi hpsl
    by_cases e1 : pos = i
    · subst e1
      rw [slot_set_eq a pos el (by omega)]
      refine ⟨hfree, ?_⟩
      by_cases e2 : pos = advance c pos
      · rw [← e2, slot_set_eq a pos el (by omega)]
        omega
      · rw [slot_set_ne a pos _ el e2] at hpsl ⊢
        obtain ⟨r1, r2⟩ := H.rh pos hi hpsl
        have := hle r1
        omega
    · rw [slot_set_ne a pos i el e1]
      by_cases e2 : pos = advance c i
      · rw [← e2, slot_set_eq a pos el (by omega)] at hpsl ⊢
        rcases hpred with h0 | ⟨q, _, hq2, hq3, hq4⟩
        · omega
        · have hqi : q = i := advance_inj (by rw [hq2, e2])
          subst hqi
          exact ⟨hq3, hq4⟩
      · rw [slot_set_ne a pos _ el e2] at hpsl ⊢
        exact H.rh i hi hpsl
  · intro i j k v w hi hj
    by_cases e1 : pos = i
    · by_cases e2 : pos = j
      · rw [← e1, ← e2]
      · exfalso
        subst e1
        rw [Holds_set_eq el hlen hpos] at hi
        rw [Holds_set_ne el e2] at hj
        rw [hdata] at hi
        have hk : ck = k := by
          have := hi.2
          injection this with e
          exact congrArg Prod.fst e
        subst hk
        exact hfresh _ _ hj
    · by_cases e2 : pos = j
      · exfalso
        subst e2
        rw [Holds_set_eq el hlen hpos] at hj
        rw [Holds_set_ne el e1] at hi
        rw [hdata] at hj
        have hk : ck = k := by
          have := hj.2
          injection this with e
          exact congrArg Prod.fst e
        subst hk
        exact hfresh _ _ hi
      · rw [Holds_set_ne el e1] at hi
        rw [Holds_set_ne el e2] at hj
        exact H.inj i j k v w hi hj

/-! ## One step of the walk of `insert` -/

variable {h0 pos j : Nat} {el : Data K V} {ck : K} {cv : V}

theorem Carry.cpos (C : Carry hash c a h0 el pos j ck cv) : 0 < c := by
  obtain ⟨jf, _, h2, _⟩ := C.gap
  omega

theorem Carry.psl_lt (C : Carry hash c a h0 el pos j ck cv) : el.psl < c := by
  obtain ⟨jf, h1, h2, _⟩ := C.gap
  have := C.el_le
  omega

theorem Carry.pos_lt (C : Carry hash c a h0 el pos j ck cv) : pos < c := by
  rw [C.pos_eq]
  exact Nat.mod_lt _ C.cpos

theorem Carry.lt_gap (C : Carry hash c a h0 el pos j ck cv) (hocc : (slot a pos).free = false) :
    ∃ jf, j + 1 ≤ jf ∧ jf < c ∧ (slot a ((h0 + jf) % c)).free = true ∧ pos ≠ (h0 + jf) % c := by
  obtain ⟨jf, h1, h2, h3⟩ := C.gap
  have hne : pos ≠ (h0 + jf) % c := by
    intro e
    rw [← e, hocc] at h3
    cases h3
  refine ⟨jf, ?_, h2, h3, hne⟩
  by_contra hcon
  have : j = jf := by omega
  subst this
  exact hne C.pos_eq

theorem Carry.before_ne (C : Carry hash c a h0 el pos j ck cv) {i : Nat} (hi : i < j) :
    pos ≠ (h0 + i) % c := by
  intro e
  rw [C.pos_eq] at e
  obtain ⟨jf, h1, h2, _⟩ := C.gap
  have := mod_add_inj (by omega) (by omega) e
  omega

/-- The walk reaches a free slot: the carried entry is written there. -/
theorem Carry.place (H : AInv hash c a) (C : Carry hash c a h0 el pos j ck cv)
    (hfree : (slot a pos).free = true) :
    AInv hash c (a.set pos el) ∧ occupied (a.set pos el) = occupied a + 1 := by
  constructor
  · exact H.set_entry C.pos_lt C.el_free C.el_data C.el_hash C.psl_lt C.el_home C.pred C.fresh
      (fun h => by rw [hfree] at h; cases h)
  · have h := countP_set (fun s : Data K V => !s.free) a pos el (by rw [H.len]; exact C.pos_lt)
    simp only [hfree, C.el_free] at h
    unfold occupied
    simpa using h

/-- The carried entry is poorer than the resident: they are exchanged. -/
theorem Carry.swap (H : AInv hash c a) (C : Carry hash c a h0 el pos j ck cv) {sk : K} {sv : V}
    (hs : Holds c a pos sk sv) (hgt : (slot a pos).psl < el.psl) :
    AInv hash c (a.set pos el) ∧ occupied (a.set pos el) = occupied a ∧
      Carry hash c (a.set pos el) h0 { slot a pos with psl := (slot a pos).psl + 1 }
        (advance c pos) (j + 1) sk sv := by
  have hpos := C.pos_lt
  have hc := C.cpos
  obtain ⟨hsh, hslt, hshome⟩ := H.key_info hs
  refine ⟨?_, ?_, ?_⟩
  · exact H.set_entry hpos C.el_free C.el_data C.el_hash C.psl_lt C.el_home C.pred C.fresh
      (fun _ => by omega)
  · have h := countP_set (fun s : Data K V => !s.free) a pos el (by rw [H.len]; exact hpos)
    simp only [hs.2.1, C.el_free] at h
    unfold occupied
    simpa using h
  · obtain ⟨jf, g1, g2, g3, g4⟩ := C.lt_gap hs.2.1
    refine ⟨hs.2.1, hs.2.2, hsh, ?_, ?_, ?_, ?_, ?_, ?_⟩
    · show (hash sk + ((slot a pos).psl + 1)) % c = advance c pos
      rw [← mod_succ_eq hc, hshome]
    · show (slot a pos).psl + 1 ≤ j + 1
      have := C.el_le
      omega
    · rw [C.pos_eq, mod_succ_eq hc]
    · right
      refine ⟨pos, hpos, rfl, ?_, ?_⟩
      · rw [slot_set_eq a pos el (by rw [H.len]; exact hpos)]
        exact C.el_free
      · rw [slot_set_eq a pos el (by rw [H.len]; exact hpos)]
        show (slot a pos).psl + 1 ≤ el.psl + 1
        omega
    · intro i v hi
      by_cases e : pos = i
      · subst e
        rw [Holds_set_eq el H.len hpos, C.el_data] at hi
        have hk : ck = sk := by
          have := hi.2
          injection this with e
          exact congrArg Prod.fst e
        subst hk
        exact C.fresh _ _ hs
      · rw [Holds_set_ne el e] at hi
        exact e (H.inj _ _ _ _ _ hs hi)
    · refine ⟨jf, g1, g2, ?_⟩
      rw [slot_set_ne a pos _ el g4]
      exact g3

/-- The resident is at least as poor as the carried entry: the walk moves on. -/
theorem Carry.pass (C : Carry hash c a h0 el pos j ck cv)
    (hocc : (slot a pos).free = false) (hle : el.psl ≤ (slot a pos).psl) :
    Carry hash c a h0 { el with psl := el.psl + 1 } (advance c pos) (j + 1) ck cv := by
  have hpos := C.pos_lt
  have hc := C.cpos
  obtain ⟨jf, g1, g2, g3, _⟩ := C.lt_gap hocc
  refine ⟨C.el_free, C.el_data, C.el_hash, ?_, ?_, ?_, ?_, C.fresh, ⟨jf, g1, g2, g3⟩⟩
  · show (hash ck + (el.psl + 1)) % c = advance c pos
    rw [← mod_succ_eq hc, C.el_home]
  · show el.psl + 1 ≤ j + 1
    have := C.el_le
    omega
  · rw [C.pos_eq, mod_succ_eq hc]
  · right
    exact ⟨pos, hpos, rfl, hocc, by show el.psl + 1 ≤ (slot a pos).psl + 1; omega⟩

/-! ## The walk of `insert` for a key that is not stored -/

variable [DecidableEq K]

theorem same_key_fresh (C : Carry hash c a h0 el pos j ck cv)
    {sk : K} {sv : V} (hs : Holds c a pos sk sv) :
    same_key ck el (slot a pos) = some false := by
  unfold same_key
  have hne : ck ≠ sk := by
    intro e
    subst e
    exact C.fresh _ _ hs
  split
  · rw [hs.2.2]
    simp [hne]
  · rfl

theorem insert_loop_fresh (key : K) :
    ∀ (fuel : Nat) (a : List (Data K V)) (n : Nat) (el : Data K V) (pos : Nat)
      (res : Nat × Bool) (j : Nat) (ck : K) (cv : V),
      AInv hash c a → Carry hash c a h0 el pos j ck cv → c ≤ j + fuel →
      (res.2 = false → ck = key) →
      ∃ a1 loc, insert_loop key fuel ⟨a, c, n⟩ el pos res = some (⟨a1, c, n + 1⟩, (loc, true)) ∧
        AInv hash c a1 ∧ occupied a1 = occupied a + 1 ∧
        (∀ i, i < j → slot a1 ((h0 + i) % c) = slot a ((h0 + i) % c)) ∧
        (res.2 = true → loc = res.1) ∧ (res.2 = false → Holds c a1 loc ck cv) ∧
        (∀ k v, (∃ i, Holds c a1 i k v) ↔ (∃ i, Holds c a i k v) ∨ (k = ck ∧ v = cv)) := by
  intro fuel
  induction fuel with
  | zero =>
    intro a n el pos res j ck cv _ C hfuel _
    obtain ⟨jf, h1, h2, _⟩ := C.gap
    omega
  | succ f ih =>
    intro a n el pos res j ck cv H C hfuel hres
    have hpos := C.pos_lt
    have hlen : pos < a.length := by rw [H.len]; exact hpos
    rw [insert_loop]
    dsimp only
    by_cases hfree : (slot a pos).free = true
    · rw [if_pos hfree]
      obtain ⟨hA, hO⟩ := C.place H hfree
      have hhold : Holds c (a.set pos el) pos ck cv :=
        (Holds_set_eq el H.len hpos ck cv).2 ⟨C.el_free, C.el_data⟩
      refine ⟨a.set pos el, if res.2 = true then res.1 else pos, ?_, hA, hO, ?_, ?_, ?_, ?_⟩
      · obtain ⟨r1, r2⟩ := res
        cases r2 <;> simp
      · intro i hi
        rw [slot_set_ne a pos _ el (C.before_ne hi)]
      · intro h; rw [if_pos h]
      · intro h; rw [if_neg (by simp [h])]; exact hhold
      · intro k v
        constructor
        · rintro ⟨i, hi⟩
          by_cases e : pos = i
          · subst e
            rw [Holds_set_eq el H.len hpos, C.el_data] at hi
            right
            have := hi.2
            injection this with e
            exact ⟨(congrArg Prod.fst e).symm, (congrArg Prod.snd e).symm⟩
          · rw [Holds_set_ne el e] at hi
            exact Or.inl ⟨i, hi⟩
        · rintro (⟨i, hi⟩ | ⟨rfl, rfl⟩)
          · have e : pos ≠ i := by
              intro e
              subst e
              rw [hi.2.1] at hfree
              cases hfree
            exact ⟨i, (Holds_set_ne el e k v).2 hi⟩
          · exact ⟨pos, hhold⟩
    · rw [if_neg hfree]
      have hocc : (slot a pos).free = false := by simpa using hfree
      obtain ⟨sk, sv, hs⟩ := H.holds_of_occupied hpos hocc
      have hm : (if res.2 = true then some false else same_key key el (slot a pos))
          = some false := by
        by_cases hr : res.2 = true
        · rw [if_pos hr]
        · rw [if_neg hr]
          have hk := hres (by simpa using hr)
          subst hk
          exact same_key_fresh C hs
      rw [hm]
      dsimp only
      by_cases hgt : el.psl > (slot a pos).psl
      · rw [if_pos hgt]
        obtain ⟨hA, hO, hC⟩ := C.swap H hs hgt
        obtain ⟨a1, loc, e1, e2, e3, e4, e5, _, e7⟩ :=
          ih (a.set pos el) n _ (advance c pos) (if res.2 = true then res else (pos, true))
            (j + 1) sk sv hA hC (by omega) (by
              intro h
              exfalso
              by_cases hr : res.2 = true
              · rw [if_pos hr] at h; rw [hr] at h; cases h
              · rw [if_neg hr] at h; cases h)
        have hpos1 : slot a1 pos = el := by
          have := e4 j (by omega)
          rw [← C.pos_eq, slot_set_eq a pos el hlen] at this
          exact this
        have hhold : Holds c a1 pos ck cv := ⟨hpos, by rw [hpos1]; exact C.el_free,
          by rw [hpos1]; exact C.el_data⟩
        refine ⟨a1, loc, e1, e2, by rw [e3, hO], ?_, ?_, ?_, ?_⟩
        · intro i hi
          rw [e4 i (by omega), slot_set_ne a pos _ el (C.before_ne hi)]
        · intro h
          have := e5 (by rw [if_pos h]; exact h)
          rw [if_pos h] at this
          exact this
        · intro h
          have := e5 (by rw [if_neg (by simp [h])])
          rw [if_neg (by simp [h])] at this
          rw [this]
          exact hhold
        · intro k v
          rw [e7]
          constructor
          · rintro (⟨i, hi⟩ | ⟨rfl, rfl⟩)
            · by_cases e : pos = i
              · subst e
                rw [Holds_set_eq el H.len hpos, C.el_data] at hi
                right
                have := hi.2
                injection this with e
                exact ⟨(congrArg Prod.fst e).symm, (congrArg Prod.snd e).symm⟩
              · rw [Holds_set_ne el e] at hi
                exact Or.inl ⟨i, hi⟩
            · exact Or.inl ⟨pos, hs⟩
          · rintro (⟨i, hi⟩ | ⟨rfl, rfl⟩)
            · by_cases e : pos = i
              · subst e
                right
                have h1 := hs.2.2
                rw [hi.2.2] at h1
                injection h1 with e
                exact ⟨congrArg Prod.fst e, congrArg Prod.snd e⟩
              · exact Or.inl ⟨i, (Holds_set_ne el e k v).2 hi⟩
            · exact Or.inl ⟨pos, (Holds_set_eq el H.len hpos k v).2 ⟨C.el_free, C.el_data⟩⟩
      · rw [if_neg hgt]
        have hC := C.pass hocc (by omega)
        obtain ⟨a1, loc, e1, e2, e3, e4, e5, e6, e7⟩ :=
          ih a n _ (advance c pos) res (j + 1) ck cv H hC (by omega) hres
        exact ⟨a1, loc, e1, e2, e3, fun i hi => e4 i (by omega), e5, e6, e7⟩

/-- The walk of `insert` from the home slot, for a key stored nowhere. -/
theorem insert_walk_fresh (H : AInv hash c a) {f : Nat} (hf : f < c)
    (hfree : (slot a f).free = true) {k : K} (habs : ∀ i v, ¬ Holds c a i k v) (v : V) (n : Nat) :
    ∃ a1 loc,
      insert_loop k c ⟨a, c, n⟩ ⟨some (k, v), hash k, 0, false⟩
        (hash k % c) (0, false) = some (⟨a1, c, n + 1⟩, (loc, true)) ∧
      AInv hash c a1 ∧ occupied a1 = occupied a + 1 ∧ Holds c a1 loc k v ∧
      (∀ k1 v1, (∃ i, Holds c a1 i k1 v1) ↔ (∃ i, Holds c a i k1 v1) ∨ (k1 = k ∧ v1 = v)) := by
  obtain ⟨jf, hjf, hjf2⟩ := exists_offset (hash k) hf
  have C : Carry hash c a (hash k) ⟨some (k, v), hash k, 0, false⟩ (hash k % c) 0 k v :=
    ⟨rfl, rfl, rfl, rfl, le_refl _, rfl, Or.inl rfl, habs,
      ⟨jf, Nat.zero_le _, hjf, by rw [hjf2]; exact hfree⟩⟩
  obtain ⟨a1, loc, e1, e2, e3, _, _, e6, e7⟩ :=
    insert_loop_fresh k c a n _ _ (0, false) 0 k v H C (by omega) (fun _ => rfl)
  exact ⟨a1, loc, e1, e2, e3, e6 rfl, e7⟩

/-- The walk of `insert` for a key that is stored: it stops at the key's slot
before any exchange and leaves the table as it was. -/
theorem insert_loop_dup (H : AInv hash c a) (hc : 0 < c) {p : Nat} {k : K} {w : V}
    (hp : Holds c a p k w) (v : V) (n : Nat) :
    ∀ m j fuel, j + m = (slot a p).psl → m < fuel →
      insert_loop k fuel ⟨a, c, n⟩ ⟨some (k, v), hash k, j, false⟩ ((hash k + j) % c)
        (0, false) = some (⟨a, c, n⟩, (p, false)) := by
  obtain ⟨hhash, hlt, hmod⟩ := H.key_info hp
  intro m
  induction m with
  | zero =>
    intro j fuel hj hfuel
    have hj2 : j = (slot a p).psl := by omega
    obtain ⟨f, rfl⟩ : ∃ f, fuel = f + 1 := ⟨fuel - 1, by omega⟩
    rw [hj2, hmod, insert_loop]
    dsimp only
    rw [if_neg (by simp [hp.2.1])]
    have hm : same_key k (⟨some (k, v), hash k, (slot a p).psl, false⟩ : Data K V) (slot a p)
        = some true := by
      unfold same_key
      rw [if_pos hhash.symm, hp.2.2]
      simp
    simp only [Bool.false_eq_true, if_false, hm]
  | succ m ih =>
    intro j fuel hj hfuel
    obtain ⟨f, rfl⟩ : ∃ f, fuel = f + 1 := ⟨fuel - 1, by omega⟩
    obtain ⟨hocc, hpsl⟩ := H.chain hc hp (m + 1) j hj
    have hq : (hash k + j) % c < c := Nat.mod_lt _ hc
    obtain ⟨k1, v1, hq1⟩ := H.holds_of_occupied hq hocc
    have hne : k ≠ k1 := by
      intro e
      subst e
      have := H.inj _ _ _ _ _ hq1 hp
      rw [← hmod] at this
      have := mod_add_inj (by omega) hlt this
      omega
    have hrec := ih (j + 1) f (by omega) (by omega)
    rw [← mod_succ_eq hc] at hrec
    have hm : same_key k (⟨some (k, v), hash k, j, false⟩ : Data K V)
        (slot a ((hash k + j) % c)) = some false := by
      unfold same_key
      split
      · rw [hq1.2.2]
        simp [hne]
      · rfl
    rw [insert_loop]
    dsimp only
    rw [if_neg (by simp [hocc])]
    simp only [Bool.false_eq_true, if_false, hm]
    rw [if_neg (by omega)]
    exact hrec

theorem insert_walk_dup (H : AInv hash c a) (hc : 0 < c) {p : Nat} {k : K} {w : V}
    (hp : Holds c a p k w) (v : V) (n : Nat) :
    insert_loop k c ⟨a, c, n⟩ ⟨some (k, v), hash k, 0, false⟩
      (hash k % c) (0, false) = some (⟨a, c, n⟩, (p, false)) := by
  have hlt := (H.key_info hp).2.1
  have := insert_loop_dup H hc hp v n (slot a p).psl 0 c (by omega) hlt
  simpa using this

end InsertLoop

end RobinHood

namespace RobinHood

section EraseLoop

variable {K V : Type} {hash : K → Nat} {c : Nat} {a : List (Data K V)}

/-! ## One step of the backward shift -/

theorem shift_slot_gap {pos nx : Nat} (hne : pos ≠ nx) (hnx : nx < a.length) :
    slot (dec_psl (swap_slots a pos nx) pos) nx = slot a pos := by
  unfold dec_psl swap_slots
  rw [slot_set_ne _ pos nx _ hne, slot_set_eq _ nx _ (by rw [List.length_set]; exact hnx)]

theorem shift_slot_moved {pos nx : Nat} (hne : pos ≠ nx) (hpos : pos < a.length) :
    slot (dec_psl (swap_slots a pos nx) pos) pos
      = { slot a nx with psl := (slot a nx).psl - 1 } := by
  have h1 : slot (swap_slots a pos nx) pos = slot a nx := by
    unfold swap_slots
    rw [slot_set_ne _ nx pos _ (Ne.symm hne), slot_set_eq _ pos _ hpos]
  unfold dec_psl
  rw [slot_set_eq _ pos _ (by unfold swap_slots; simp only [List.length_set]; exact hpos), h1]

theorem shift_slot_other {pos nx i : Nat} (h1 : pos ≠ i) (h2 : nx ≠ i) :
    slot (dec_psl (swap_slots a pos nx) pos) i = slot a i := by
  unfold dec_psl swap_slots
  rw [slot_set_ne _ pos i _ h1, slot_set_ne _ nx i _ h2, slot_set_ne _ pos i _ h1]

theorem shift_length (pos nx : Nat) :
    (dec_psl (swap_slots a pos nx) pos).length = a.length := by
  unfold dec_psl swap_slots
  simp only [List.length_set]

theorem shift_occupied {pos nx : Nat} (hne : pos ≠ nx) (hpos : pos < a.length)
    (hnx : nx < a.length) (hfree : (slot a pos).free = true) (hocc : (slot a nx).free = false) :
    occupied (dec_psl (swap_slots a pos nx) pos) = occupied a := by
  have hX : slot ((a.set pos (slot a nx)).set nx (slot a pos)) pos = slot a nx := by
    rw [slot_set_ne _ nx pos _ (Ne.symm hne), slot_set_eq _ pos _ hpos]
  have key : ∀ m : Data K V, m.free = false →
      List.countP (fun s : Data K V => !s.free)
        (((a.set pos (slot a nx)).set nx (slot a pos)).set pos m)
      = List.countP (fun s : Data K V => !s.free) a := by
    intro m hm
    have e1 := countP_set (fun s : Data K V => !s.free) a pos (slot a nx) hpos
    have e2 := countP_set (fun s : Data K V => !s.free) (a.set pos (slot a nx)) nx (slot a pos)
      (by rw [List.length_set]; exact hnx)
    have e3 := countP_set (fun s : Data K V => !s.free)
      ((a.set pos (slot a nx)).set nx (slot a pos)) pos m
      (by simp only [List.length_set]; exact hpos)
    rw [slot_set_ne _ pos nx _ hne] at e2
    rw [hX] at e3
    simp only [hfree, hocc, hm] at e1 e2 e3
    simp only [Bool.not_true, Bool.not_false, if_true, if_false, Bool.false_eq_true] at e1 e2 e3
    omega
  unfold occupied dec_psl swap_slots
  exact key _ (by rw [hX]; exact hocc)

theorem Holds_shift_moved {pos nx : Nat} (hne : pos ≠ nx) (hlen : a.length = c)
    (hpos : pos < c) (hnx : nx < c) (k : K) (v : V) :
    Holds c (dec_psl (swap_slots a pos nx) pos) pos k v ↔ Holds c a nx k v := by
  unfold Holds
  rw [shift_slot_moved hne (by omega)]
  constructor
  · rintro ⟨_, h1, h2⟩; exact ⟨hnx, h1, h2⟩
  · rintro ⟨_, h1, h2⟩; exact ⟨hpos, h1, h2⟩

theorem Holds_shift_other {pos nx i : Nat} (h1 : pos ≠ i) (h2 : nx ≠ i) (k : K) (v : V) :
    Holds c (dec_psl (swap_slots a pos nx) pos) i k v ↔ Holds c a i k v := by
  unfold Holds
  rw [shift_slot_other h1 h2]

variable {p0 pos j g : Nat}

theorem Gap.gpos (G : Gap hash c a p0 pos j g) : 0 < c := by
  obtain ⟨jf, _, h2, _⟩ := G.ahead
  omega

theorem Gap.gap_lt (G : Gap hash c a p0 pos j g) : pos < c := by
  rw [G.pos_eq]
  exact Nat.mod_lt _ G.gpos

theorem Gap.next_occupied (G : Gap hash c a p0 pos j g)
    (hpsl : 0 < (slot a (advance c pos)).psl) : (slot a (advance c pos)).free = false := by
  by_contra h
  have h1 : (slot a (advance c pos)).free = true := by simpa using h
  have := (G.wf _ (advance_lt G.gap_lt)).1 h1
  omega

/-- The entry after the gap is not at home: it moves into the gap. -/
theorem Gap.step (G : Gap hash c a p0 pos j g) (hpsl : 0 < (slot a (advance c pos)).psl) :
    Gap hash c (dec_psl (swap_slots a pos (advance c pos)) pos) p0 (advance c pos) (j + 1)
      (slot a (advance c pos)).psl := by
  have hc := G.gpos
  have hpos := G.gap_lt
  have hnx : advance c pos < c := advance_lt hpos
  have hocc := G.next_occupied hpsl
  have hlen := G.len
  have hne : pos ≠ advance c pos := by
    intro e
    have h := G.hole
    rw [e, hocc] at h
    cases h
  have hnxeq : advance c pos = (p0 + (j + 1)) % c := by rw [G.pos_eq, mod_succ_eq hc]
  obtain ⟨jf, g1, g2, g3⟩ := G.ahead
  have g4 : j + 1 < jf := by
    by_contra hcon
    have : jf = j + 1 := by omega
    rw [this, ← hnxeq, hocc] at g3
    cases g3
  have hc3 : 3 ≤ c := by omega
  have hnn1 : advance c pos ≠ advance c (advance c pos) := Ne.symm (advance_ne_self (by omega))
  have hnn2 : pos ≠ advance c (advance c pos) := Ne.symm (advance_advance_ne hc3)
  have hgapslot := shift_slot_gap (a := a) hne (by omega : advance c pos < a.length)
  have hmoved : slot (dec_psl (swap_slots a pos (advance c pos)) pos) pos
      = { slot a (advance c pos) with psl := (slot a (advance c pos)).psl - 1 } :=
    shift_slot_moved hne (by omega)
  refine ⟨by rw [shift_length]; exact hlen, ?_, hnxeq, by rw [hgapslot]; exact G.hole, ?_, ?_, ?_,
    ?_, ?_⟩
  · -- slot consistency
    intro i hi
    by_cases e1 : pos = i
    · subst e1
      rw [hmoved]
      refine ⟨fun h => (by rw [hocc] at h; cases h), fun _ => ?_⟩
      obtain ⟨k, v, hd, hh, hlt, hhome⟩ := (G.wf _ hnx).2 hocc
      refine ⟨k, v, hd, hh, by show (slot a (advance c pos)).psl - 1 < c; omega, ?_⟩
      show (hash k + ((slot a (advance c pos)).psl - 1)) % c = pos
      apply advance_inj (c := c)
      rw [mod_succ_eq hc, show (slot a (advance c pos)).psl - 1 + 1 = (slot a (advance c pos)).psl
        by omega]
      exact hhome
    · by_cases e2 : advance c pos = i
      · subst e2
        rw [hgapslot]
        refine ⟨(G.wf pos hpos).1, fun h => ?_⟩
        rw [G.hole] at h
        cases h
      · rw [shift_slot_other e1 e2]
        exact G.wf i hi
  · -- Robin Hood ordering away from the new gap
    intro i hi hinx hp
    by_cases e1 : pos = i
    · subst e1
      rw [hgapslot, (G.wf pos hpos).1 G.hole] at hp
      omega
    · have e2 : advance c pos ≠ i := Ne.symm hinx
      rw [shift_slot_other e1 e2]
      by_cases e3 : pos = advance c i
      · rw [← e3, hmoved] at hp ⊢
        have hp2 : 0 < (slot a (advance c pos)).psl - 1 := hp
        have hnl := G.next_le
        rcases G.pred with h0 | ⟨q, _, hq2, hq3, hq4⟩
        · omega
        · have hqi : q = i := advance_inj (by rw [hq2, e3])
          subst hqi
          refine ⟨hq3, ?_⟩
          show (slot a (advance c pos)).psl - 1 ≤ (slot a q).psl + 1
          omega
      · have e4 : advance c pos ≠ advance c i := fun e => e1 (advance_inj e)
        rw [shift_slot_other e3 e4] at hp ⊢
        exact G.rh i hi (Ne.symm e1) hp
  · -- the entry after the new gap
    rw [shift_slot_other hnn2 hnn1]
    by_cases hz : 0 < (slot a (advance c (advance c pos))).psl
    · exact (G.rh _ hnx (Ne.symm hne) hz).2
    · omega
  · -- the slot before the new gap
    right
    refine ⟨pos, hpos, rfl, by rw [hmoved]; exact hocc, ?_⟩
    rw [hmoved]
    show (slot a (advance c pos)).psl ≤ (slot a (advance c pos)).psl - 1 + 1
    omega
  · -- uniqueness of keys
    intro i1 i2 k v w h1 h2
    have hgapno : ∀ v1, ¬ Holds c (dec_psl (swap_slots a pos (advance c pos)) pos)
        (advance c pos) k v1 := by
      intro v1 h
      have := h.2.1
      rw [hgapslot, G.hole] at this
      cases this
    by_cases a1 : advance c pos = i1
    · subst a1; exact absurd h1 (hgapno v)
    by_cases a2 : advance c pos = i2
    · subst a2; exact absurd h2 (hgapno w)
    by_cases b1 : pos = i1
    · by_cases b2 : pos = i2
      · rw [← b1, ← b2]
      · exfalso
        subst b1
        rw [Holds_shift_moved hne hlen hpos hnx] at h1
        rw [Holds_shift_other b2 a2] at h2
        exact a2 (G.inj _ _ _ _ _ h1 h2)
    · by_cases b2 : pos = i2
      · exfalso
        subst b2
        rw [Holds_shift_moved hne hlen hpos hnx] at h2
        rw [Holds_shift_other b1 a1] at h1
        exact a1 (G.inj _ _ _ _ _ h2 h1)
      · rw [Holds_shift_other b1 a1] at h1
        rw [Holds_shift_other b2 a2] at h2
        exact G.inj _ _ _ _ _ h1 h2
  · -- a free slot further ahead
    refine ⟨jf, g4, g2, ?_⟩
    have n1 : pos ≠ (p0 + jf) % c := by
      intro e
      rw [G.pos_eq] at e
      have := mod_add_inj (by omega) g2 e
      omega
    have n2 : advance c pos ≠ (p0 + jf) % c := by
      intro e
      rw [hnxeq] at e
      have := mod_add_inj (by omega) g2 e
      omega
    rw [shift_slot_other n1 n2]
    exact g3

theorem Gap.step_stored (G : Gap hash c a p0 pos j g) (hpsl : 0 < (slot a (advance c pos)).psl)
    (k : K) (v : V) :
    (∃ i, Holds c (dec_psl (swap_slots a pos (advance c pos)) pos) i k v)
      ↔ ∃ i, Holds c a i k v := by
  have hpos := G.gap_lt
  have hnx : advance c pos < c := advance_lt hpos
  have hocc := G.next_occupied hpsl
  have hne : pos ≠ advance c pos := by
    intro e
    have h := G.hole
    rw [e, hocc] at h
    cases h
  have hgapslot := shift_slot_gap (a := a) hne (by rw [G.len]; exact hnx)
  constructor
  · rintro ⟨i, hi⟩
    by_cases b1 : pos = i
    · subst b1
      exact ⟨_, (Holds_shift_moved hne G.len hpos hnx k v).1 hi⟩
    · by_cases a1 : advance c pos = i
      · subst a1
        have := hi.2.1
        rw [hgapslot, G.hole] at this
        cases this
      · exact ⟨i, (Holds_shift_other b1 a1 k v).1 hi⟩
  · rintro ⟨i, hi⟩
    by_cases b1 : pos = i
    · subst b1
      have := hi.2.1
      rw [G.hole] at this
      cases this
    · by_cases a1 : advance c pos = i
      · subst a1
        exact ⟨pos, (Holds_shift_moved hne G.len hpos hnx k v).2 hi⟩
      · exact ⟨i, (Holds_shift_other b1 a1 k v).2 hi⟩

/-- The entry after the gap is at home or the slot is free: the shift is over. -/
theorem Gap.stop (G : Gap hash c a p0 pos j g) (hpsl : (slot a (advance c pos)).psl = 0) :
    AInv hash c a := by
  refine ⟨G.len, G.wf, ?_, G.inj⟩
  intro i hi hp
  by_cases e : i = pos
  · subst e
    omega
  · exact G.rh i hi e hp

/-! ## The backward shift as a whole -/

theorem erase_loop_spec :
    ∀ (fuel : Nat) (a : List (Data K V)) (pos j g : Nat),
      Gap hash c a p0 pos j g → c ≤ j + fuel + 1 →
      ∃ a1, erase_loop c fuel a pos = some a1 ∧ AInv hash c a1 ∧ occupied a1 = occupied a ∧
        ∀ k v, (∃ i, Holds c a1 i k v) ↔ ∃ i, Holds c a i k v := by
  intro fuel
  induction fuel with
  | zero =>
    intro a pos j g G hfuel
    obtain ⟨jf, h1, h2, _⟩ := G.ahead
    omega
  | succ f ih =>
    intro a pos j g G hfuel
    have hpos := G.gap_lt
    rw [erase_loop, advance_eq_mod hpos]
    by_cases hpsl : 0 < (slot a (advance c pos)).psl
    · rw [if_pos hpsl]
      have hocc := G.next_occupied hpsl
      have hne : pos ≠ advance c pos := by
        intro e
        have h := G.hole
        rw [e, hocc] at h
        cases h
      obtain ⟨a1, e1, e2, e3, e4⟩ := ih _ _ (j + 1) _ (G.step hpsl) (by omega)
      refine ⟨a1, e1, e2, ?_, ?_⟩
      · rw [e3]
        exact shift_occupied hne (by rw [G.len]; exact hpos)
          (by rw [G.len]; exact advance_lt hpos) G.hole hocc
      · intro k v
        rw [e4, G.step_stored hpsl]
    · rw [if_neg hpsl]
      exact ⟨a, rfl, G.stop (by omega), rfl, fun _ _ => Iff.rfl⟩

/-- Marking the slot of a stored key free opens the gap the shift starts from. -/
theorem Gap.start (H : AInv hash c a) {p : Nat} {k : K} {v : V} (hp : Holds c a p k v)
    {f : Nat} (hf : f < c) (hfree : (slot a f).free = true) :
    Gap hash c (a.set p { slot a p with free := true, psl := 0 }) p p 0 (slot a p).psl := by
  have hpc := hp.1
  have hc : 0 < c := by omega
  have hlen : p < a.length := by rw [H.len]; exact hpc
  have hself : slot (a.set p { slot a p with free := true, psl := 0 }) p
      = { slot a p with free := true, psl := 0 } := slot_set_eq a p _ hlen
  refine ⟨by rw [List.length_set]; exact H.len, ?_, by rw [Nat.add_zero, Nat.mod_eq_of_lt hpc],
    by rw [hself], ?_, ?_, ?_, ?_, ?_⟩
  · intro i hi
    by_cases e : p = i
    · subst e
      rw [hself]
      exact ⟨fun _ => rfl, fun h => by cases h⟩
    · rw [slot_set_ne a p i _ e]
      exact H.wf i hi
  · intro i hi hne hpsl
    rw [slot_set_ne a p i _ (Ne.symm hne)]
    by_cases e : p = advance c i
    · rw [← e, hself] at hpsl
      exact absurd hpsl (Nat.lt_irrefl 0)
    · rw [slot_set_ne a p _ _ e] at hpsl ⊢
      exact H.rh i hi hpsl
  · by_cases e : p = advance c p
    · rw [← e, hself]
      exact Nat.zero_le _
    · rw [slot_set_ne a p _ _ e]
      by_cases hz : 0 < (slot a (advance c p)).psl
      · exact (H.rh p hpc hz).2
      · omega
  · by_cases hg : (slot a p).psl = 0
    · exact Or.inl hg
    · right
      obtain ⟨q, hq, hqp⟩ := exists_pred hpc
      have hrh := H.rh q hq
      rw [hqp] at hrh
      obtain ⟨r1, r2⟩ := hrh (by omega)
      have hqne : p ≠ q := by
        intro e
        subst e
        have hlt := (H.key_info hp).2.1
        by_cases h2 : 2 ≤ c
        · exact advance_ne_self h2 hqp
        · omega
      refine ⟨q, hq, hqp, ?_, ?_⟩
      · rw [slot_set_ne a p q _ hqne]; exact r1
      · rw [slot_set_ne a p q _ hqne]; exact r2
  · intro i1 i2 k1 v1 w1 h1 h2
    have hno : ∀ v2, ¬ Holds c (a.set p { slot a p with free := true, psl := 0 }) p k1 v2 := by
      intro v2 h
      have := h.2.1
      rw [hself] at this
      cases this
    by_cases e1 : p = i1
    · subst e1; exact absurd h1 (hno v1)
    by_cases e2 : p = i2
    · subst e2; exact absurd h2 (hno w1)
    rw [Holds_set_ne _ e1] at h1
    rw [Holds_set_ne _ e2] at h2
    exact H.inj _ _ _ _ _ h1 h2
  · obtain ⟨jf, hjf, hjf2⟩ := exists_offset p hf
    have hfp : p ≠ f := by
      intro e
      rw [← e, hp.2.1] at hfree
      cases hfree
    refine ⟨jf, ?_, hjf, ?_⟩
    · by_contra hcon
      have : jf = 0 := by omega
      rw [this, Nat.add_zero, Nat.mod_eq_of_lt hpc] at hjf2
      exact hfp hjf2
    · rw [hjf2, slot_set_ne a p f _ hfp]
      exact hfree

theorem mark_occupied (H : AInv hash c a) {p : Nat} {k : K} {v : V} (hp : Holds c a p k v) :
    occupied (a.set p { slot a p with free := true, psl := 0 }) + 1 = occupied a := by
  have h := countP_set (fun s : Data K V => !s.free) a p
    { slot a p with free := true, psl := 0 } (by rw [H.len]; exact hp.1)
  simp only [hp.2.1] at h
  unfold occupied
  simpa using h

theorem mark_stored (H : AInv hash c a) {p : Nat} {k : K} {v : V} (hp : Holds c a p k v)
    (k1 : K) (v1 : V) :
    (∃ i, Holds c (a.set p { slot a p with free := true, psl := 0 }) i k1 v1)
      ↔ (∃ i, Holds c a i k1 v1) ∧ k1 ≠ k := by
  have hlen : p < a.length := by rw [H.len]; exact hp.1
  constructor
  · rintro ⟨i, hi⟩
    by_cases e : p = i
    · subst e
      have := hi.2.1
      rw [slot_set_eq a p _ hlen] at this
      cases this
    · rw [Holds_set_ne _ e] at hi
      refine ⟨⟨i, hi⟩, ?_⟩
      intro ek
      subst ek
      exact e (H.inj _ _ _ _ _ hp hi)
  · rintro ⟨⟨i, hi⟩, hne⟩
    by_cases e : p = i
    · subst e
      exfalso
      have h1 := hp.2.2
      rw [hi.2.2] at h1
      injection h1 with e
      exact hne (congrArg Prod.fst e)
    · exact ⟨i, (Holds_set_ne _ e k1 v1).2 hi⟩

end EraseLoop

end RobinHood

namespace RobinHood

section Table

variable {K V : Type} {hash : K → Nat}

theorem occupied_replicate (n : Nat) : occupied (List.replicate n ({} : Data K V)) = 0 := by
  unfold occupied
  induction n with
  | zero => rfl
  | succ m ih => rw [List.replicate_succ, List.countP_cons, ih]; rfl

theorem AInv.of_replicate (n : Nat) : AInv hash n (List.replicate n ({} : Data K V)) := by
  refine ⟨List.length_replicate _ _, ?_, ?_, ?_⟩
  · intro i _
    rw [slot_replicate]
    exact ⟨fun _ => rfl, fun h => by cases h⟩
  · intro i _ h
    rw [slot_replicate] at h
    exact absurd h (Nat.lt_irrefl 0)
  · intro i j k v w h _
    have := h.2.1
    rw [slot_replicate] at this
    cases this

theorem Inv.of_empty (n : Nat) (hn : 0 < n) :
    Inv hash ({ data_ := List.replicate n {}, capacity_ := n, size_ := 0 } : HashMap K V) :=
  ⟨AInv.of_replicate n, hn, by show 5 * 0 ≤ 4 * n; omega, occupied_replicate n⟩

theorem stored_empty (n : Nat) (k : K) (v : V) :
    ¬ ({ data_ := List.replicate n {}, capacity_ := n, size_ := 0 } : HashMap K V).Stored k v := by
  rintro ⟨i, hi⟩
  have := hi.2.1
  simp only [slot_replicate] at this
  cases this

theorem Inv.init : Inv hash (HashMap.init : HashMap K V) :=
  Inv.of_empty INITIAL_CAPACITY (by decide)

theorem occupied_take_succ (a : List (Data K V)) (i : Nat) (h : i < a.length) :
    occupied (a.take (i + 1)) = occupied (a.take i) + (if (slot a i).free then 0 else 1) := by
  unfold occupied slot
  induction a generalizing i with
  | nil => simp at h
  | cons y ys ih =>
    cases i with
    | zero =>
      simp only [List.take_succ_cons, List.take_zero, List.countP_cons, List.countP_nil,
        List.getD_cons_zero]
      by_cases hy : y.free = true <;> simp [hy]
    | succ n =>
      have hn : n < ys.length := by simpa using h
      have := ih n hn
      simp only [List.take_succ_cons, List.countP_cons, List.getD_cons_succ]
      omega

theorem occupied_take_le (a : List (Data K V)) (i : Nat) : occupied (a.take i) ≤ i := by
  unfold occupied
  exact le_trans (List.countP_le_length _) (by rw [List.length_take]; exact Nat.min_le_left _ _)

variable [DecidableEq K]

/-! ## `erase` on a table satisfying the invariant -/

theorem erase_absent {t : HashMap K V} (H : Inv hash t) {k : K} (habs : ¬ t.Present k) :
    erase hash t k = some t := by
  obtain ⟨p, h1, _, h3⟩ := find__absent H habs
  unfold erase
  rw [h1]
  simp [h3]

theorem erase_present {t : HashMap K V} (H : Inv hash t) {p : Nat} {k : K} {v : V}
    (hp : t.HoldsAt p k v) :
    ∃ t1, erase hash t k = some t1 ∧ Inv hash t1 ∧ t1.capacity_ = t.capacity_ ∧
      t1.size_ + 1 = t.size_ ∧ ∀ k1 v1, t1.Stored k1 v1 ↔ t.Stored k1 v1 ∧ k1 ≠ k := by
  obtain ⟨f, hf, hfree⟩ := H.free_slot
  have G := Gap.start H.arr hp hf hfree
  obtain ⟨a1, e1, e2, e3, e4⟩ := erase_loop_spec t.capacity_ _ p 0 _ G (by omega)
  have hm := mark_occupied H.arr hp
  have hcnt := H.cnt
  have hload := H.load
  refine ⟨{ t with data_ := a1, size_ := t.size_ - 1 }, ?_, ⟨e2, H.cap_pos, ?_, ?_⟩, rfl, ?_, ?_⟩
  · unfold erase
    rw [find__present H hp]
    simp only [hp.2.1, Bool.false_eq_true, if_false, e1]
  · show 5 * (t.size_ - 1) ≤ 4 * t.capacity_
    omega
  · show occupied a1 = t.size_ - 1
    omega
  · show t.size_ - 1 + 1 = t.size_
    omega
  · intro k1 v1
    show (∃ i, Holds t.capacity_ a1 i k1 v1) ↔ _
    rw [e4, mark_stored H.arr hp]
    rfl

/-! ## `insert` without a resize -/

theorem insertN_fresh_fit {t : HashMap K V} (H : Inv hash t)
    (hload : 5 * (t.size_ + 1) ≤ 4 * t.capacity_) {k : K} (habs : ¬ t.Present k) (v : V)
    (d : Nat) :
    ∃ t1 loc, insertN hash (d + 1) t (k, v) = some (t1, (loc, true)) ∧ Inv hash t1 ∧
      t1.capacity_ = t.capacity_ ∧ t1.size_ = t.size_ + 1 ∧ t1.HoldsAt loc k v ∧
      ∀ k1 v1, t1.Stored k1 v1 ↔ t.Stored k1 v1 ∨ (k1 = k ∧ v1 = v) := by
  obtain ⟨f, hf, hfree⟩ := H.free_slot
  obtain ⟨a, c, n⟩ := t
  obtain ⟨a1, loc, e1, e2, e3, e4, e5⟩ :=
    insert_walk_fresh H.arr hf hfree (HashMap.not_present_iff.1 habs) v n
  refine ⟨⟨a1, c, n + 1⟩, loc, ?_, ⟨e2, H.cap_pos, hload, ?_⟩, rfl, rfl, e4, e5⟩
  · rw [insertN]
    dsimp only at hload ⊢
    rw [if_neg (by omega)]
    exact e1
  · have hcnt : occupied a = n := H.cnt
    have e3b : occupied a1 = occupied a + 1 := e3
    show occupied a1 = n + 1
    omega

theorem insertN_dup_fit {t : HashMap K V} (H : Inv hash t)
    (hload : 5 * (t.size_ + 1) ≤ 4 * t.capacity_) {p : Nat} {k : K} {w : V}
    (hp : t.HoldsAt p k w) (v : V) (d : Nat) :
    insertN hash (d + 1) t (k, v) = some (t, (p, false)) := by
  obtain ⟨a, c, n⟩ := t
  rw [insertN]
  dsimp only at hload ⊢
  rw [if_neg (by omega)]
  exact insert_walk_dup H.arr H.cap_pos hp v n

/-! ## The resize -/

theorem reinsert_spec {c : Nat} {old : List (Data K V)} (Hold : AInv hash c old) (d : Nat) :
    ∀ (n i : Nat) (t : HashMap K V), i + n = c → Inv hash t → t.capacity_ = 2 * c + 1 →
      t.size_ = occupied (old.take i) →
      (∀ k v, t.Stored k v ↔ ∃ i1, i1 < i ∧ Holds c old i1 k v) →
      ∃ t1, reinsert (insertN hash (d + 1)) old n i t = some t1 ∧ Inv hash t1 ∧
        t1.capacity_ = 2 * c + 1 ∧ t1.size_ = occupied old ∧
        ∀ k v, t1.Stored k v ↔ ∃ i1, Holds c old i1 k v := by
  intro n
  induction n with
  | zero =>
    intro i t hi H hcap hsize hst
    have hic : i = c := by omega
    subst hic
    refine ⟨t, by rw [reinsert], H, hcap, ?_, ?_⟩
    · rw [hsize, List.take_of_length_le (by rw [Hold.len])]
    · intro k v
      rw [hst]
      constructor
      · rintro ⟨i1, _, h⟩; exact ⟨i1, h⟩
      · rintro ⟨i1, h⟩; exact ⟨i1, h.1, h⟩
  | succ n ih =>
    intro i t hi H hcap hsize hst
    have hic : i < c := by omega
    have hlen : i < old.length := by rw [Hold.len]; exact hic
    have htake := occupied_take_succ old i hlen
    rw [reinsert]
    by_cases hfree : (slot old i).free = true
    · rw [if_pos hfree]
      rw [if_pos hfree] at htake
      apply ih (i + 1) t (by omega) H hcap (by rw [hsize, htake]; rfl)
      intro k v
      rw [hst]
      constructor
      · rintro ⟨i1, h1, h⟩; exact ⟨i1, by omega, h⟩
      · rintro ⟨i1, h1, h⟩
        refine ⟨i1, ?_, h⟩
        by_contra hcon
        have : i1 = i := by omega
        subst this
        have := h.2.1
        rw [hfree] at this
        cases this
    · rw [if_neg hfree]
      rw [if_neg hfree] at htake
      have hocc : (slot old i).free = false := by simpa using hfree
      obtain ⟨k, v, hs⟩ := Hold.holds_of_occupied hic hocc
      have habs : ¬ t.Present k := by
        rw [HashMap.present_iff]
        rintro ⟨v1, hv1⟩
        obtain ⟨i1, h1, h⟩ := (hst k v1).1 hv1
        have := Hold.inj _ _ _ _ _ h hs
        omega
      have hle := occupied_take_le old i
      obtain ⟨t1, loc, e1, e2, e3, e4, _, e6⟩ :=
        insertN_fresh_fit H (by omega) habs v d
      rw [hs.2.2]
      dsimp only
      rw [e1]
      dsimp only
      apply ih (i + 1) t1 (by omega) e2 (by rw [e3, hcap]) (by rw [e4, hsize, htake])
      intro k1 v1
      rw [e6, hst]
      constructor
      · rintro (⟨i1, h1, h⟩ | ⟨rfl, rfl⟩)
        · exact ⟨i1, by omega, h⟩
        · exact ⟨i, by omega, hs⟩
      · rintro ⟨i1, h1, h⟩
        by_cases e : i1 = i
        · subst e
          right
          have h2 := hs.2.2
          rw [h.2.2] at h2
          injection h2 with e
          exact ⟨congrArg Prod.fst e, congrArg Prod.snd e⟩
        · exact Or.inl ⟨i1, by omega, h⟩

theorem increase_capacity_with_spec {t : HashMap K V} (H : Inv hash t) (d : Nat) :
    ∃ t1, increase_capacity_with (insertN hash (d + 1)) t = some t1 ∧ Inv hash t1 ∧
      t1.capacity_ = 2 * t.capacity_ + 1 ∧ t1.size_ = t.size_ ∧
      ∀ k v, t1.Stored k v ↔ t.Stored k v := by
  obtain ⟨t1, e1, e2, e3, e4, e5⟩ := reinsert_spec H.arr d t.capacity_ 0
    { data_ := List.replicate (2 * t.capacity_ + 1) {}, capacity_ := 2 * t.capacity_ + 1,
      size_ := 0 }
    (by omega) (Inv.of_empty _ (by omega)) rfl (by rw [List.take_zero]; rfl)
    (by
      intro k v
      constructor
      · intro h; exact absurd h (stored_empty _ k v)
      · rintro ⟨i1, h1, _⟩; omega)
  exact ⟨t1, e1, e2, e3, by rw [e4, H.cnt], e5⟩

/-! ## `insert` in general -/

theorem insertN_grow {t t1 : HashMap K V} (hgrow : 4 * t.capacity_ < 5 * (t.size_ + 1))
    (d : Nat) (h : increase_capacity_with (insertN hash d) t = some t1)
    (hfit : 5 * (t1.size_ + 1) ≤ 4 * t1.capacity_) (data : K × V) :
    insertN hash (d + 1) t data = insertN hash 1 t1 data := by
  rw [insertN, insertN, if_pos hgrow, h, if_neg (by omega)]

theorem insertN_fresh {t : HashMap K V} (H : Inv hash t) {k : K} (habs : ¬ t.Present k) (v : V)
    (d : Nat) :
    ∃ t1 loc, insertN hash (d + 2) t (k, v) = some (t1, (loc, true)) ∧ Inv hash t1 ∧
      t1.size_ = t.size_ + 1 ∧ t1.HoldsAt loc k v ∧
      (∀ k1 v1, t1.Stored k1 v1 ↔ t.Stored k1 v1 ∨ (k1 = k ∧ v1 = v)) ∧
      t1.capacity_ =
        if 4 * t.capacity_ < 5 * (t.size_ + 1) then 2 * t.capacity_ + 1 else t.capacity_ := by
  by_cases hgrow : 4 * t.capacity_ < 5 * (t.size_ + 1)
  · obtain ⟨t0, g1, g2, g3, g4, g5⟩ := increase_capacity_with_spec H d
    have hload := H.load
    have hcap := H.cap_pos
    have hfit : 5 * (t0.size_ + 1) ≤ 4 * t0.capacity_ := by omega
    have habs0 : ¬ t0.Present k := by
      rw [HashMap.present_iff]
      rintro ⟨v1, hv1⟩
      exact habs (HashMap.present_iff.2 ⟨v1, (g5 k v1).1 hv1⟩)
    obtain ⟨t1, loc, e1, e2, e3, e4, e5, e6⟩ := insertN_fresh_fit g2 hfit habs0 v 0
    refine ⟨t1, loc, ?_, e2, by rw [e4, g4], e5, ?_, by rw [if_pos hgrow, e3, g3]⟩
    · rw [insertN_grow hgrow (d + 1) g1 hfit]
      exact e1
    · intro k1 v1
      rw [e6, g5]
  · obtain ⟨t1, loc, e1, e2, e3, e4, e5, e6⟩ := insertN_fresh_fit H (by omega) habs v (d + 1)
    exact ⟨t1, loc, e1, e2, e4, e5, e6, by rw [if_neg hgrow, e3]⟩

theorem insertN_dup {t : HashMap K V} (H : Inv hash t) {p : Nat} {k : K} {w : V}
    (hp : t.HoldsAt p k w) (v : V) (d : Nat) :
    ∃ t1 loc, insertN hash (d + 2) t (k, v) = some (t1, (loc, false)) ∧ Inv hash t1 ∧
      t1.size_ = t.size_ ∧ t1.HoldsAt loc k w ∧
      (∀ k1 v1, t1.Stored k1 v1 ↔ t.Stored k1 v1) ∧
      t1.capacity_ =
        if 4 * t.capacity_ < 5 * (t.size_ + 1) then 2 * t.capacity_ + 1 else t.capacity_ := by
  by_cases hgrow : 4 * t.capacity_ < 5 * (t.size_ + 1)
  · obtain ⟨t0, g1, g2, g3, g4, g5⟩ := increase_capacity_with_spec H d
    have hload := H.load
    have hcap := H.cap_pos
    have hfit : 5 * (t0.size_ + 1) ≤ 4 * t0.capacity_ := by omega
    obtain ⟨p0, hp0⟩ := (g5 k w).2 ⟨p, hp⟩
    refine ⟨t0, p0, ?_, g2, g4, hp0, g5, by rw [if_pos hgrow, g3]⟩
    rw [insertN_grow hgrow (d + 1) g1 hfit]
    exact insertN_dup_fit g2 hfit hp0 v 0
  · exact ⟨t, p, insertN_dup_fit H (by omega) hp v (d + 1), H, rfl, hp, fun _ _ => Iff.rfl,
      by rw [if_neg hgrow]⟩

/-! ## The nesting depth of `insert` -/

theorem insert_loop_shape (key : K) :
    ∀ (fuel : Nat) (t : HashMap K V) (el : Data K V) (pos : Nat) (res : Nat × Bool)
      (r : HashMap K V × (Nat × Bool)),
      insert_loop key fuel t el pos res = some r →
      r.1.capacity_ = t.capacity_ ∧ r.1.size_ ≤ t.size_ + 1 := by
  intro fuel
  induction fuel with
  | zero =>
    intro t el pos res r h
    rw [insert_loop] at h
    cases h
  | succ f ih =>
    intro t el pos res r h
    rw [insert_loop] at h
    split at h
    · injection h with h
      subst h
      exact ⟨rfl, le_refl _⟩
    · split at h
      · cases h
      · injection h with h
        subst h
        exact ⟨rfl, Nat.le_succ _⟩
      · split at h
        · exact ih { t with data_ := t.data_.set pos el } _ _ _ _ h
        · exact ih t _ _ _ _ h

theorem insertN_fit_eq {t : HashMap K V} (hfit : ¬ 4 * t.capacity_ < 5 * (t.size_ + 1))
    (d : Nat) (data : K × V) :
    insertN hash (d + 1) t data =
      insert_loop data.1 t.capacity_ t ⟨some (data.1, data.2), hash data.1, 0, false⟩
        (hash data.1 % t.capacity_) (0, false) := by
  rw [insertN, if_neg hfit]

theorem reinsert_depth (old : List (Data K V)) (c d : Nat) :
    ∀ (n i : Nat) (t : HashMap K V), i + n = c → t.capacity_ = 2 * c + 1 → t.size_ ≤ i →
      reinsert (insertN hash (d + 1)) old n i t = reinsert (insertN hash 1) old n i t := by
  intro n
  induction n with
  | zero =>
    intro i t _ _ _
    rw [reinsert, reinsert]
  | succ n ih =>
    intro i t hi hcap hsize
    have hfit : ¬ 4 * t.capacity_ < 5 * (t.size_ + 1) := by omega
    rw [reinsert, reinsert]
    split
    · exact ih (i + 1) t (by omega) hcap (by omega)
    · split
      · rfl
      · rename_i kv _
        rw [insertN_fit_eq hfit d kv, insertN_fit_eq hfit 0 kv]
        split
        · rfl
        · rename_i r hr
          obtain ⟨h1, h2⟩ := insert_loop_shape _ _ _ _ _ _ _ hr
          exact ih (i + 1) r.1 (by omega) (by rw [h1, hcap]) (by omega)

/-- More than two nested `insert` calls are never made: the bound 2 of `insert`
loses nothing. -/
theorem insertN_depth (hash : K → Nat) (d : Nat) (t : HashMap K V) (data : K × V) :
    insertN hash (d + 2) t data = insert hash t data := by
  unfold insert
  have h : increase_capacity_with (insertN hash (d + 1)) t
      = increase_capacity_with (insertN hash 1) t := by
    unfold increase_capacity_with
    exact reinsert_depth t.data_ t.capacity_ d t.capacity_ 0 _ (by omega) rfl (le_refl _)
  rw [insertN, insertN, h]

end Table

end RobinHood

namespace RobinHood

section Reach

variable {K V : Type} {hash : K → Nat}

theorem Inv.stored_unique {t : HashMap K V} (H : Inv hash t) {i j : Nat} {k : K} {v w : V}
    (hi : t.HoldsAt i k v) (hj : t.HoldsAt j k w) : i = j ∧ v = w := by
  have e := H.arr.inj _ _ _ _ _ hi hj
  subst e
  have h1 := hi.2.2
  rw [hj.2.2] at h1
  injection h1 with h1
  exact ⟨rfl, (congrArg Prod.snd h1).symm⟩

variable [DecidableEq K]

/-! ## Every reachable table satisfies the invariant -/

theorem insert_inv {t : HashMap K V} (H : Inv hash t) {data : K × V}
    {r : HashMap K V × (Nat × Bool)} (h : insert hash t data = some r) : Inv hash r.1 := by
  obtain ⟨k, v⟩ := data
  unfold insert at h
  by_cases hp : t.Present k
  · obtain ⟨w, p, hp⟩ := HashMap.present_iff.1 hp
    obtain ⟨t1, loc, e1, e2, _⟩ := insertN_dup H hp v 0
    rw [e1] at h
    injection h with h
    subst h
    exact e2
  · obtain ⟨t1, loc, e1, e2, _⟩ := insertN_fresh H hp v 0
    rw [e1] at h
    injection h with h
    subst h
    exact e2

theorem erase_inv {t : HashMap K V} (H : Inv hash t) {key : K} {t1 : HashMap K V}
    (h : erase hash t key = some t1) : Inv hash t1 := by
  by_cases hp : t.Present key
  · obtain ⟨w, p, hp⟩ := HashMap.present_iff.1 hp
    obtain ⟨t2, e1, e2, _⟩ := erase_present H hp
    rw [e1] at h
    injection h with h
    subst h
    exact e2
  · rw [erase_absent H hp] at h
    injection h with h
    subst h
    exact H

theorem index_present [Inhabited V] {t : HashMap K V} (H : Inv hash t) {p : Nat} {k : K}
    {v : V} (hp : t.HoldsAt p k v) : index hash t k = some (t, p) := by
  unfold index
  rw [find__present H hp]
  simp [hp.2.1]

theorem index_absent [Inhabited V] {t : HashMap K V} (H : Inv hash t) {k : K}
    (habs : ¬ t.Present k) :
    ∃ t1 loc, insert hash t (k, default) = some (t1, (loc, true)) ∧
      index hash t k = some (t1, loc) := by
  obtain ⟨p, h1, _, h3⟩ := find__absent H habs
  obtain ⟨t1, loc, e1, _⟩ := insertN_fresh H habs (default : V) 0
  refine ⟨t1, loc, e1, ?_⟩
  unfold index
  rw [h1]
  simp only [h3, if_true]
  unfold insert
  rw [e1]

theorem index_inv [Inhabited V] {t : HashMap K V} (H : Inv hash t) {key : K}
    {r : HashMap K V × Nat} (h : index hash t key = some r) : Inv hash r.1 := by
  by_cases hp : t.Present key
  · obtain ⟨w, p, hp⟩ := HashMap.present_iff.1 hp
    rw [index_present H hp] at h
    injection h with h
    subst h
    exact H
  · obtain ⟨t1, loc, e1, e2⟩ := index_absent H hp
    rw [e2] at h
    injection h with h
    subst h
    exact insert_inv H e1

theorem Reachable.inv [Inhabited V] {t : HashMap K V} (ht : Reachable hash t) : Inv hash t := by
  induction ht with
  | init => exact Inv.init
  | insert t data r _ h ih => exact insert_inv ih h
  | erase t key t1 _ h ih => exact erase_inv ih h
  | index t key r _ h ih => exact index_inv ih h
  | clear t _ _ => exact Inv.init

theorem lookup_stored {t : HashMap K V} (H : Inv hash t) {k : K} {v : V} (h : t.Stored k v) :
    (∃ p, find hash t k = some p ∧ p ≠ t.end_ ∧ t.HoldsAt p k v) ∧
      at_ hash t k = some (Except.ok v) := by
  obtain ⟨p, hp⟩ := h
  refine ⟨⟨p, find_present H hp, ?_, hp⟩, at_present H hp⟩
  have := hp.1
  unfold HashMap.end_
  omega

theorem insert_all_spec (hash : K → Nat) :
    ∀ (l : List (K × V)) (t : HashMap K V) (ks : List K), Inv hash t → ks.Nodup →
      (∀ k, k ∈ ks ↔ t.Present k) → ks.length = t.size_ →
      ∃ (t1 : HashMap K V) (ks1 : List K), insert_all hash l t = some t1 ∧ Inv hash t1 ∧ ks1.Nodup ∧
        (∀ k, k ∈ ks1 ↔ t1.Present k) ∧ ks1.length = t1.size_ ∧
        ∀ k, t1.Present k ↔ t.Present k ∨ k ∈ l.map Prod.fst := by
  intro l
  induction l with
  | nil =>
    intro t ks H h1 h2 h3
    exact ⟨t, ks, rfl, H, h1, h2, h3, fun k => by simp⟩
  | cons kv rest ih =>
    intro t ks H h1 h2 h3
    obtain ⟨k, v⟩ := kv
    rw [insert_all]
    unfold insert
    by_cases hp : t.Present k
    · obtain ⟨w, p, hpw⟩ := HashMap.present_iff.1 hp
      obtain ⟨t1, loc, e1, e2, e3, _, e5, _⟩ := insertN_dup H hpw v 0
      have hpres : ∀ k1, t1.Present k1 ↔ t.Present k1 := by
        intro k1
        rw [HashMap.present_iff, HashMap.present_iff]
        exact exists_congr (fun v1 => e5 k1 v1)
      obtain ⟨t2, ks2, f1, f2, f3, f4, f5, f6⟩ := ih t1 ks e2 h1
        (fun k1 => by rw [h2, hpres]) (by rw [h3, e3])
      rw [e1]
      refine ⟨t2, ks2, f1, f2, f3, f4, f5, ?_⟩
      intro k1
      rw [f6, hpres, List.map_cons, List.mem_cons]
      constructor
      · rintro (h | h)
        · exact Or.inl h
        · exact Or.inr (Or.inr h)
      · rintro (h | h | h)
        · exact Or.inl h
        · exact Or.inl (by rw [h]; exact hp)
        · exact Or.inr h
    · obtain ⟨t1, loc, e1, e2, e3, _, e5, _⟩ := insertN_fresh H hp v 0
      have hpres : ∀ k1, t1.Present k1 ↔ t.Present k1 ∨ k1 = k := by
        intro k1
        rw [HashMap.present_iff, HashMap.present_iff]
        constructor
        · rintro ⟨v1, h⟩
          rcases (e5 k1 v1).1 h with h | ⟨h, _⟩
          · exact Or.inl ⟨v1, h⟩
          · exact Or.inr h
        · rintro (⟨v1, h⟩ | h)
          · exact ⟨v1, (e5 k1 v1).2 (Or.inl h)⟩
          · exact ⟨v, (e5 k1 v).2 (Or.inr ⟨h, rfl⟩)⟩
      obtain ⟨t2, ks2, f1, f2, f3, f4, f5, f6⟩ := ih t1 (k :: ks) e2
        (List.nodup_cons.2 ⟨fun hmem => hp ((h2 k).1 hmem), h1⟩)
        (fun k1 => by rw [List.mem_cons, hpres, h2, or_comm])
        (by rw [List.length_cons, h3, e3])
      rw [e1]
      refine ⟨t2, ks2, f1, f2, f3, f4, f5, ?_⟩
      intro k1
      rw [f6, hpres, List.map_cons, List.mem_cons, or_assoc]

/-! ## The concrete tables are reachable -/

theorem one_key_reachable : Reachable id_hash one_key :=
  Reachable.insert HashMap.init (1, 10) (one_key, (1, true)) Reachable.init (by rfl)

theorem two_keys_reachable : Reachable id_hash two_keys :=
  Reachable.insert one_key (2, 20) (two_keys, (2, true)) one_key_reachable (by rfl)

theorem three_keys_reachable : Reachable id_hash three_keys :=
  Reachable.insert two_keys (13, 30) (three_keys, (2, true)) two_keys_reachable (by rfl)

end Reach

end RobinHood

namespace RobinHood

section Claims

variable {K V : Type} [DecidableEq K] [Inhabited V]

/-! ## The contract of the table -/

/-- C1: on a reachable table, `insert(k, v)` of a key held by no occupied slot
returns `inserted = true` and a slot index `loc`; in the table it leaves, slot
`loc` is occupied and holds the pair `(k, v)`, and `size()` has grown by one. -/
theorem C1_insert_absent_key (hash : K → Nat) (t : HashMap K V) (ht : Reachable hash t)
    (k : K) (v : V) (habs : ¬ t.Present k) :
    ∃ t1 loc, insert hash t (k, v) = some (t1, (loc, true)) ∧ t1.HoldsAt loc k v ∧
      t1.size = t.size + 1 := by
  obtain ⟨t1, loc, e1, _, e3, e4, _⟩ := insertN_fresh ht.inv habs v 0
  exact ⟨t1, loc, e1, e4, e3⟩

/-- C1 at the table `three_keys` and the new key 25, whose walk from home slot 1
exchanges it with the resident of slot 3. -/
theorem C1_witness :
    Reachable id_hash three_keys ∧ ¬ three_keys.Present 25 ∧
      ∃ t1 loc, insert id_hash three_keys (25, 40) = some (t1, (loc, true)) ∧
        t1.HoldsAt loc 25 40 ∧ t1.size = three_keys.size + 1 :=
  ⟨three_keys_reachable, by decide,
    C1_insert_absent_key id_hash three_keys three_keys_reachable 25 40 (by decide)⟩

/-- C2 fails as stated: on the reachable table `one_key`, which stores `(1, 10)`,
`insert(1, 20)` returns `inserted = false` and changes nothing, and afterwards
`at(1)` yields 10, not the inserted value 20. -/
theorem C2_counterexample :
    Reachable id_hash one_key ∧
      insert id_hash one_key (1, 20) = some (one_key, (1, false)) ∧
      at_ id_hash one_key 1 = some (Except.ok 10) ∧
      at_ id_hash one_key 1 ≠ some (Except.ok 20) :=
  ⟨one_key_reachable, by rfl, by rfl, by
    intro h
    have h2 : at_ id_hash one_key 1 = some (Except.ok 10) := by rfl
    rw [h2] at h
    injection h with h
    injection h with h
    exact absurd h (by decide)⟩

/-- C2, amended: on a reachable table, after `insert(k, v)` the lookup `find(k)`
is not the end sentinel but the location `insert` returned, the slot it
designates holds `k` with a value `u`, and `at(k)` returns `u`; `u` is `v` when
`k` was held by no occupied slot before the call, and is the value stored
before the call when `k` was already present. -/
theorem C2_insert_then_lookup (hash : K → Nat) (t : HashMap K V) (ht : Reachable hash t)
    (k : K) (v : V) :
    ∃ t1 r u, insert hash t (k, v) = some (t1, r) ∧ find hash t1 k = some r.1 ∧
      r.1 ≠ t1.end_ ∧ t1.HoldsAt r.1 k u ∧ at_ hash t1 k = some (Except.ok u) ∧
      (¬ t.Present k → u = v) ∧ (∀ w, t.Stored k w → u = w) := by
  have H := ht.inv
  by_cases hp : t.Present k
  · obtain ⟨w, p, hpw⟩ := HashMap.present_iff.1 hp
    obtain ⟨t1, loc, e1, e2, _, e4, _⟩ := insertN_dup H hpw v 0
    refine ⟨t1, (loc, false), w, e1, find_present e2 e4, ?_, e4, at_present e2 e4,
      fun h => absurd hp h, ?_⟩
    · have := e4.1
      unfold HashMap.end_
      show loc ≠ t1.capacity_
      omega
    · rintro w1 ⟨p1, hp1⟩
      exact (H.stored_unique hpw hp1).2
  · obtain ⟨t1, loc, e1, e2, _, e4, _⟩ := insertN_fresh H hp v 0
    refine ⟨t1, (loc, true), v, e1, find_present e2 e4, ?_, e4, at_present e2 e4,
      fun _ => rfl, ?_⟩
    · have := e4.1
      unfold HashMap.end_
      show loc ≠ t1.capacity_
      omega
    · intro w hw
      exact absurd (HashMap.present_iff.2 ⟨w, hw⟩) hp

/-- C2 (amended) at the table `one_key` and the pair `(1, 20)`. -/
theorem C2_witness :
    Reachable id_hash one_key ∧
      ∃ t1 r u, insert id_hash one_key (1, 20) = some (t1, r) ∧
        find id_hash t1 1 = some r.1 ∧ r.1 ≠ t1.end_ ∧ t1.HoldsAt r.1 1 u ∧
        at_ id_hash t1 1 = some (Except.ok u) ∧
        (¬ one_key.Present 1 → u = 20) ∧ (∀ w, one_key.Stored 1 w → u = w) :=
  ⟨one_key_reachable, C2_insert_then_lookup id_hash one_key one_key_reachable 1 20⟩

/-- C3: on a reachable table where an occupied slot holds `k` with value `w`,
`insert(k, v)` returns `inserted = false` and a location whose slot holds `k`
(still with `w`); `size()` is unchanged, `at(k)` is still `w`, and every other
key present before is still found, with the same value. -/
theorem C3_insert_present_key (hash : K → Nat) (t : HashMap K V) (ht : Reachable hash t)
    (k : K) (w : V) (hw : t.Stored k w) (v : V) :
    ∃ t1 loc, insert hash t (k, v) = some (t1, (loc, false)) ∧ t1.HoldsAt loc k w ∧
      t1.size = t.size ∧ at_ hash t1 k = some (Except.ok w) ∧
      ∀ k1 w1, k1 ≠ k → t.Stored k1 w1 →
        (∃ p, find hash t1 k1 = some p ∧ p ≠ t1.end_ ∧ t1.HoldsAt p k1 w1) ∧
          at_ hash t1 k1 = some (Except.ok w1) := by
  obtain ⟨p, hp⟩ := hw
  obtain ⟨t1, loc, e1, e2, e3, e4, e5, _⟩ := insertN_dup ht.inv hp v 0
  exact ⟨t1, loc, e1, e4, e3, at_present e2 e4,
    fun k1 w1 _ h => lookup_stored e2 ((e5 k1 w1).2 h)⟩

/-- C3 at the table `three_keys` and the stored key 13. -/
theorem C3_witness :
    Reachable id_hash three_keys ∧ three_keys.Stored 13 30 ∧
      ∃ t1 loc, insert id_hash three_keys (13, 99) = some (t1, (loc, false)) ∧
        t1.HoldsAt loc 13 30 ∧ t1.size = three_keys.size ∧
        at_ id_hash t1 13 = some (Except.ok 30) ∧
        ∀ k1 w1, k1 ≠ 13 → three_keys.Stored k1 w1 →
          (∃ p, find id_hash t1 k1 = some p ∧ p ≠ t1.end_ ∧ t1.HoldsAt p k1 w1) ∧
            at_ id_hash t1 k1 = some (Except.ok w1) :=
  ⟨three_keys_reachable, by decide,
    C3_insert_present_key id_hash three_keys three_keys_reachable 13 30 (by decide) 99⟩

/-- C4: on a reachable table and for every key `k`, present or not, `erase(k)`
returns, and afterwards `find(k)` is the end sentinel (index `capacity_`),
`at(k)` throws `out_of_range`, and no occupied slot holds `k`. -/
theorem C4_erase_then_lookup (hash : K → Nat) (t : HashMap K V) (ht : Reachable hash t)
    (k : K) :
    ∃ t1, erase hash t k = some t1 ∧ find hash t1 k = some t1.end_ ∧
      t1.end_ = t1.capacity_ ∧ at_ hash t1 k = some (Except.error Error.out_of_range) ∧
      ¬ t1.Present k := by
  have H := ht.inv
  by_cases hp : t.Present k
  · obtain ⟨w, p, hpw⟩ := HashMap.present_iff.1 hp
    obtain ⟨t1, e1, e2, _, _, e5⟩ := erase_present H hpw
    have habs : ¬ t1.Present k := by
      rw [HashMap.present_iff]
      rintro ⟨v1, h⟩
      exact ((e5 k v1).1 h).2 rfl
    exact ⟨t1, e1, find_absent e2 habs, rfl, at_absent e2 habs, habs⟩
  · exact ⟨t, erase_absent H hp, find_absent H hp, rfl, at_absent H hp, hp⟩

/-- C4 at the table `three_keys` and its key 1. -/
theorem C4_witness :
    Reachable id_hash three_keys ∧
      ∃ t1, erase id_hash three_keys 1 = some t1 ∧ find id_hash t1 1 = some t1.end_ ∧
        t1.end_ = t1.capacity_ ∧
        at_ id_hash t1 1 = some (Except.error Error.out_of_range) ∧ ¬ t1.Present 1 :=
  ⟨three_keys_reachable, C4_erase_then_lookup id_hash three_keys three_keys_reachable 1⟩

/-- C5: on a reachable table, `erase(k)` of a key held by an occupied slot
decreases `size()` by exactly one; every other key that was present is still
found by `find` and `at`, with its value unchanged; the table afterwards stores
nothing it did not store before, and no key twice. -/
theorem C5_erase_frame (hash : K → Nat) (t : HashMap K V) (ht : Reachable hash t)
    (k : K) (hk : t.Present k) :
    ∃ t1, erase hash t k = some t1 ∧ t1.size + 1 = t.size ∧
      (∀ k1 v1, k1 ≠ k → t.Stored k1 v1 →
        (∃ p, find hash t1 k1 = some p ∧ p ≠ t1.end_ ∧ t1.HoldsAt p k1 v1) ∧
          at_ hash t1 k1 = some (Except.ok v1)) ∧
      (∀ k1 v1, t1.Stored k1 v1 → t.Stored k1 v1 ∧ k1 ≠ k) ∧
      (∀ i j k1 v1 w1, t1.HoldsAt i k1 v1 → t1.HoldsAt j k1 w1 → i = j) := by
  obtain ⟨w, p, hpw⟩ := HashMap.present_iff.1 hk
  obtain ⟨t1, e1, e2, _, e4, e5⟩ := erase_present ht.inv hpw
  exact ⟨t1, e1, e4, fun k1 v1 hne h => lookup_stored e2 ((e5 k1 v1).2 ⟨h, hne⟩),
    fun k1 v1 h => (e5 k1 v1).1 h, fun i j k1 v1 w1 hi hj => (e2.stored_unique hi hj).1⟩

/-- C5 at the table `three_keys` and its key 1, whose erasure shifts the two
entries after it back by one slot. -/
theorem C5_witness :
    Reachable id_hash three_keys ∧ three_keys.Present 1 ∧
      ∃ t1, erase id_hash three_keys 1 = some t1 ∧ t1.size + 1 = three_keys.size ∧
        (∀ k1 v1, k1 ≠ 1 → three_keys.Stored k1 v1 →
          (∃ p, find id_hash t1 k1 = some p ∧ p ≠ t1.end_ ∧ t1.HoldsAt p k1 v1) ∧
            at_ id_hash t1 k1 = some (Except.ok v1)) ∧
        (∀ k1 v1, t1.Stored k1 v1 → three_keys.Stored k1 v1 ∧ k1 ≠ 1) ∧
        (∀ i j k1 v1 w1, t1.HoldsAt i k1 v1 → t1.HoldsAt j k1 w1 → i = j) :=
  ⟨three_keys_reachable, by decide,
    C5_erase_frame id_hash three_keys three_keys_reachable 1 (by decide)⟩

/-- C6: on a reachable table, `erase(k)` of a key held by no occupied slot
returns the table it was given (same slot array, capacity and size), so that
erasing the key a second time does the same. -/
theorem C6_erase_absent_noop (hash : K → Nat) (t : HashMap K V) (ht : Reachable hash t)
    (k : K) (habs : ¬ t.Present k) :
    erase hash t k = some t ∧
      (erase hash t k).bind (fun t1 => erase hash t1 k) = some t := by
  have h := erase_absent ht.inv habs
  refine ⟨h, ?_⟩
  rw [h, Option.some_bind, h]

/-- C6 at the table `three_keys` and the key 25, whose probe from home slot 1
passes three occupied slots. -/
theorem C6_witness :
    Reachable id_hash three_keys ∧ ¬ three_keys.Present 25 ∧
      erase id_hash three_keys 25 = some three_keys ∧
      (erase id_hash three_keys 25).bind (fun t1 => erase id_hash t1 25) = some three_keys :=
  ⟨three_keys_reachable, by decide,
    C6_erase_absent_noop id_hash three_keys three_keys_reachable 25 (by decide)⟩

omit [Inhabited V] in
/-- C7: every finite run of `insert` calls on a fresh table returns; in the
final table each key of the run is held by exactly one occupied slot, no two
occupied slots hold equal keys, and `size()` is the number of distinct keys. -/
theorem C7_insert_run_unique (hash : K → Nat) (l : List (K × V)) :
    ∃ t, insert_all hash l HashMap.init = some t ∧
      (∀ k, k ∈ l.map Prod.fst → ∃! i, ∃ v, t.HoldsAt i k v) ∧
      (∀ i j k v w, t.HoldsAt i k v → t.HoldsAt j k w → i = j) ∧
      t.size = (l.map Prod.fst).dedup.length := by
  have hinit : ∀ k : K, ¬ (HashMap.init : HashMap K V).Present k := by
    intro k
    rw [HashMap.present_iff]
    rintro ⟨v, h⟩
    exact stored_empty _ k v h
  obtain ⟨t, ks, e1, e2, e3, e4, e5, e6⟩ := insert_all_spec hash l HashMap.init []
    Inv.init List.nodup_nil (fun k => by simp [hinit k]) rfl
  refine ⟨t, e1, ?_, fun i j k v w hi hj => (e2.stored_unique hi hj).1, ?_⟩
  · intro k hk
    obtain ⟨v, i, hi⟩ := HashMap.present_iff.1 ((e6 k).2 (Or.inr hk))
    refine ⟨i, ⟨v, hi⟩, ?_⟩
    rintro j ⟨w, hj⟩
    exact (e2.stored_unique hj hi).1
  · have hperm : ks.Perm (l.map Prod.fst).dedup := by
      rw [List.perm_ext_iff_of_nodup e3 (List.nodup_dedup _)]
      intro k
      rw [e4, e6, List.mem_dedup]
      constructor
      · rintro (h | h)
        · exact absurd h (hinit k)
        · exact h
      · exact Or.inr
    show t.size_ = _
    rw [← e5, hperm.length_eq]

/-- C8: on a reachable table `size <= capacity * 0.8`, read exactly as
`5 * size <= 4 * capacity`; so `size < capacity` and some slot is free; and the
internal resize of the table returns a table with the same bound. -/
theorem C8_load_factor (hash : K → Nat) (t : HashMap K V) (ht : Reachable hash t) :
    5 * t.size ≤ 4 * t.capacity_ ∧ t.size < t.capacity_ ∧
      (∃ f, f < t.capacity_ ∧ (slot t.data_ f).free = true) ∧
      ∃ t1, increase_capacity hash t = some t1 ∧ 5 * t1.size ≤ 4 * t1.capacity_ := by
  have H := ht.inv
  obtain ⟨t1, e1, e2, _⟩ := increase_capacity_with_spec H 1
  exact ⟨H.load, H.size_lt, H.free_slot, t1, e1, e2.load⟩

/-- C8 at the table `three_keys`. -/
theorem C8_witness :
    Reachable id_hash three_keys ∧
      5 * three_keys.size ≤ 4 * three_keys.capacity_ ∧
      three_keys.size < three_keys.capacity_ ∧
      (∃ f, f < three_keys.capacity_ ∧ (slot three_keys.data_ f).free = true) ∧
      ∃ t1, increase_capacity id_hash three_keys = some t1 ∧ 5 * t1.size ≤ 4 * t1.capacity_ :=
  ⟨three_keys_reachable, C8_load_factor id_hash three_keys three_keys_reachable⟩

/-- C9: on a reachable table the internal resize `increase_capacity` returns a
table in which every pair held by an occupied slot before is found by `find`
and `at` with its value, no key absent before is found, and `size()` is the
size before. -/
theorem C9_resize_preserves (hash : K → Nat) (t : HashMap K V) (ht : Reachable hash t) :
    ∃ t1, increase_capacity hash t = some t1 ∧
      (∀ k v, t.Stored k v →
        (∃ p, find hash t1 k = some p ∧ p ≠ t1.end_ ∧ t1.HoldsAt p k v) ∧
          at_ hash t1 k = some (Except.ok v)) ∧
      (∀ k, ¬ t.Present k →
        find hash t1 k = some t1.end_ ∧
          at_ hash t1 k = some (Except.error Error.out_of_range)) ∧
      t1.size = t.size := by
  obtain ⟨t1, e1, e2, _, e4, e5⟩ := increase_capacity_with_spec ht.inv 1
  refine ⟨t1, e1, fun k v h => lookup_stored e2 ((e5 k v).2 h), ?_, e4⟩
  intro k habs
  have habs1 : ¬ t1.Present k := by
    rw [HashMap.present_iff]
    rintro ⟨v, h⟩
    exact habs (HashMap.present_iff.2 ⟨v, (e5 k v).1 h⟩)
  exact ⟨find_absent e2 habs1, at_absent e2 habs1⟩

/-- C9 at the table `three_keys`. -/
theorem C9_witness :
    Reachable id_hash three_keys ∧
      ∃ t1, increase_capacity id_hash three_keys = some t1 ∧
        (∀ k v, three_keys.Stored k v →
          (∃ p, find id_hash t1 k = some p ∧ p ≠ t1.end_ ∧ t1.HoldsAt p k v) ∧
            at_ id_hash t1 k = some (Except.ok v)) ∧
        (∀ k, ¬ three_keys.Present k →
          find id_hash t1 k = some t1.end_ ∧
            at_ id_hash t1 k = some (Except.error Error.out_of_range)) ∧
        t1.size = three_keys.size :=
  ⟨three_keys_reachable, C9_resize_preserves id_hash three_keys three_keys_reachable⟩

/-- C10: on a reachable table, `at(k)` throws `out_of_range` exactly when no
occupied slot holds `k`; when a slot holds `k`, that slot is the only one and
`at(k)` returns the value stored in it; `find(k)` is the end sentinel exactly
when no occupied slot holds `k`.  (`at` is a `const` method: `at_` returns no
table.) -/
theorem C10_at_contract (hash : K → Nat) (t : HashMap K V) (ht : Reachable hash t) (k : K) :
    (at_ hash t k = some (Except.error Error.out_of_range) ↔ ¬ t.Present k) ∧
      (∀ i v, t.HoldsAt i k v →
        at_ hash t k = some (Except.ok v) ∧ ∀ j w, t.HoldsAt j k w → j = i ∧ w = v) ∧
      (find hash t k = some t.end_ ↔ ¬ t.Present k) := by
  have H := ht.inv
  refine ⟨⟨?_, at_absent H⟩, ?_, ⟨?_, find_absent H⟩⟩
  · intro h hp
    obtain ⟨w, p, hpw⟩ := HashMap.present_iff.1 hp
    rw [at_present H hpw] at h
    injection h with h
    cases h
  · intro i v hi
    exact ⟨at_present H hi, fun j w hj => H.stored_unique hj hi⟩
  · intro h hp
    obtain ⟨w, p, hpw⟩ := HashMap.present_iff.1 hp
    rw [find_present H hpw] at h
    injection h with h
    have := hpw.1
    unfold HashMap.end_ at h
    omega

/-- C10 at the table `three_keys` and the key 2, which sits one slot after its
home slot. -/
theorem C10_witness :
    Reachable id_hash three_keys ∧
      (at_ id_hash three_keys 2 = some (Except.error Error.out_of_range) ↔
        ¬ three_keys.Present 2) ∧
      (∀ i v, three_keys.HoldsAt i 2 v →
        at_ id_hash three_keys 2 = some (Except.ok v) ∧
          ∀ j w, three_keys.HoldsAt j 2 w → j = i ∧ w = v) ∧
      (find id_hash three_keys 2 = some three_keys.end_ ↔ ¬ three_keys.Present 2) :=
  ⟨three_keys_reachable, C10_at_contract id_hash three_keys three_keys_reachable 2⟩

end Claims

end RobinHood

namespace RobinHood

section Iteration

variable {K V : Type} {hash : K → Nat}

/-! ## Cursors and the traversal -/

theorem skip_free_spec (a : List (Data K V)) (c : Nat) :
    ∀ (fuel i : Nat), c ≤ i + fuel → i ≤ c →
      i ≤ skip_free a c fuel i ∧ skip_free a c fuel i ≤ c ∧
      (skip_free a c fuel i < c → (slot a (skip_free a c fuel i)).free = false) ∧
      ∀ m, i ≤ m → m < skip_free a c fuel i → (slot a m).free = true := by
  intro fuel
  induction fuel with
  | zero =>
    intro i h1 h2
    rw [skip_free]
    exact ⟨le_refl _, h2, fun h => by omega, fun m h3 h4 => by omega⟩
  | succ f ih =>
    intro i h1 h2
    rw [skip_free]
    by_cases h : i < c ∧ (slot a i).free = true
    · rw [if_pos h]
      obtain ⟨e1, e2, e3, e4⟩ := ih (i + 1) (by omega) (by omega)
      refine ⟨by omega, e2, e3, ?_⟩
      intro m h3 h4
      by_cases e : m = i
      · rw [e]; exact h.2
      · exact e4 m (by omega) h4
    · rw [if_neg h]
      refine ⟨le_refl _, h2, ?_, fun m h3 h4 => by omega⟩
      intro hlt
      by_contra hf
      exact h ⟨hlt, by simpa using hf⟩

theorem occupied_drop (a : List (Data K V)) (i : Nat) (h : i < a.length) :
    occupied (a.drop i)
      = (if (slot a i).free = true then 0 else 1) + occupied (a.drop (i + 1)) := by
  unfold occupied slot
  induction a generalizing i with
  | nil => simp at h
  | cons y ys ih =>
    cases i with
    | zero =>
      simp only [List.drop_zero, List.drop_succ_cons, List.countP_cons, List.getD_cons_zero]
      by_cases hy : y.free = true <;> simp [hy]
      omega
    | succ n =>
      have hn : n < ys.length := by simpa using h
      simpa using ih n hn

theorem occupied_drop_free (a : List (Data K V)) :
    ∀ (d i : Nat), i + d ≤ a.length → (∀ m, i ≤ m → m < i + d → (slot a m).free = true) →
      occupied (a.drop i) = occupied (a.drop (i + d)) := by
  intro d
  induction d with
  | zero => intro i _ _; rfl
  | succ d ih =>
    intro i h1 h2
    rw [occupied_drop a i (by omega), if_pos (h2 i (le_refl _) (by omega)), Nat.zero_add,
      ih (i + 1) (by omega) (fun m h3 h4 => h2 m (by omega) (by omega))]
    congr 2
    omega

theorem traverse_from_spec {t : HashMap K V} (H : Inv hash t) :
    ∀ (fuel i : Nat), t.capacity_ < i + fuel → i ≤ t.capacity_ →
      (i < t.capacity_ → (slot t.data_ i).free = false) →
      ∃ l, traverse_from t fuel i = some l ∧ (∀ x, x ∈ l → i ≤ x.1) ∧
        l.Pairwise (fun x y => x.1 < y.1) ∧
        (∀ p k v, (p, (k, v)) ∈ l ↔ i ≤ p ∧ t.HoldsAt p k v) ∧
        l.length = occupied (t.data_.drop i) := by
  intro fuel
  induction fuel with
  | zero => intro i h1 h2 _; omega
  | succ f ih =>
    intro i h1 h2 h3
    have hlen := H.arr.len
    rw [traverse_from]
    by_cases hend : i = t.end_
    · rw [if_pos hend]
      have hic : i = t.capacity_ := hend
      refine ⟨[], rfl, fun x hx => absurd hx (List.not_mem_nil x), List.Pairwise.nil, ?_, ?_⟩
      · intro p k v
        constructor
        · intro h; cases h
        · rintro ⟨h4, h5⟩
          have := h5.1
          omega
      · rw [List.drop_of_length_le (by omega)]
        rfl
    · rw [if_neg hend]
      have hic : i < t.capacity_ := by
        have : i ≠ t.capacity_ := hend
        omega
      have hocc := h3 hic
      obtain ⟨k, v, hs⟩ := H.arr.holds_of_occupied hic hocc
      obtain ⟨s1, s2, s3, s4⟩ :=
        skip_free_spec t.data_ t.capacity_ (t.capacity_ - (i + 1)) (i + 1) (by omega) (by omega)
      have hnx : iterator_next t i
          = skip_free t.data_ t.capacity_ (t.capacity_ - (i + 1)) (i + 1) := rfl
      rw [← hnx] at s1 s2 s3 s4
      obtain ⟨rest, e1, e2, e3, e4, e5⟩ := ih (iterator_next t i) (by omega) s2 s3
      have hderef : iterator_deref t i = some (k, v) := hs.2.2
      rw [hderef]
      dsimp only
      rw [e1]
      dsimp only
      refine ⟨(i, (k, v)) :: rest, rfl, ?_, ?_, ?_, ?_⟩
      · intro x hx
        rcases List.mem_cons.1 hx with h | h
        · rw [h]
        · have := e2 x h
          omega
      · refine List.Pairwise.cons ?_ e3
        intro x hx
        have := e2 x hx
        show i < x.1
        omega
      · intro p k1 v1
        rw [List.mem_cons, e4]
        constructor
        · rintro (h | ⟨h4, h5⟩)
          · injection h with h6 h7
            injection h7 with h8 h9
            subst h6 h8 h9
            exact ⟨le_refl _, hs⟩
          · exact ⟨by omega, h5⟩
        · rintro ⟨h4, h5⟩
          by_cases e : p = i
          · subst e
            left
            have h6 := hs.2.2
            rw [h5.2.2] at h6
            injection h6 with h6
            rw [h6]
          · right
            refine ⟨?_, h5⟩
            by_contra hcon
            have hfree := s4 p (by omega) (by omega)
            rw [h5.2.1] at hfree
            cases hfree
      · rw [List.length_cons, e5, occupied_drop t.data_ i (by omega), if_neg (by simp [hocc])]
        have hfree := occupied_drop_free t.data_ (iterator_next t i - (i + 1)) (i + 1)
          (by omega) (fun m h4 h5 => s4 m h4 (by omega))
        rw [hfree]
        have : i + 1 + (iterator_next t i - (i + 1)) = iterator_next t i := by omega
        rw [this]
        omega

theorem traverse_spec {t : HashMap K V} (H : Inv hash t) :
    ∃ l, traverse t = some l ∧ l.Pairwise (fun x y => x.1 < y.1) ∧
      (∀ p k v, (p, (k, v)) ∈ l ↔ t.HoldsAt p k v) ∧ l.length = t.size_ := by
  obtain ⟨s1, s2, s3, s4⟩ := skip_free_spec t.data_ t.capacity_ t.capacity_ 0 (by omega) (by omega)
  have hb : begin_ t = skip_free t.data_ t.capacity_ t.capacity_ 0 := rfl
  rw [← hb] at s1 s2 s3 s4
  obtain ⟨l, e1, _, e3, e4, e5⟩ := traverse_from_spec H (t.capacity_ + 1) (begin_ t)
    (by omega) s2 s3
  refine ⟨l, e1, e3, ?_, ?_⟩
  · intro p k v
    rw [e4]
    constructor
    · exact fun h => h.2
    · intro h
      refine ⟨?_, h⟩
      by_contra hcon
      have hfree := s4 p (Nat.zero_le _) (by omega)
      rw [h.2.1] at hfree
      cases hfree
  · have hfree := occupied_drop_free t.data_ (begin_ t) 0
      (by rw [H.arr.len]; unfold begin_; omega)
      (fun m h4 h5 => s4 m h4 (by unfold begin_; omega))
    rw [e5, ← H.cnt]
    rw [Nat.zero_add, List.drop_zero] at hfree
    exact hfree.symm

theorem begin_of_empty (t : HashMap K V)
    (h : ∀ i, i < t.capacity_ → (slot t.data_ i).free = true) : begin_ t = t.end_ := by
  obtain ⟨_, s2, s3, _⟩ := skip_free_spec t.data_ t.capacity_ t.capacity_ 0 (by omega) (by omega)
  unfold begin_ HashMap.end_
  by_contra hne
  have hlt : skip_free t.data_ t.capacity_ t.capacity_ 0 < t.capacity_ := by omega
  have := h _ hlt
  rw [s3 hlt] at this
  cases this

/-! ## The table and the set of pairs inserted and not erased -/

variable [DecidableEq K]

theorem tracked_insert_step {t t1 : HashMap K V} {m : K → Option V} {k0 : K} {v0 : V}
    (ih : ∀ k v, t.Stored k v ↔ m k = some v)
    (hdup : ∀ w, t.Stored k0 w → ∀ k v, t1.Stored k v ↔ t.Stored k v)
    (hnew : ¬ t.Present k0 → ∀ k v, t1.Stored k v ↔ t.Stored k v ∨ (k = k0 ∧ v = v0))
    (k : K) (v : V) :
    t1.Stored k v ↔
      (if (m k0).isSome then m else Function.update m k0 (some v0)) k = some v := by
  by_cases hp : t.Present k0
  · obtain ⟨w, hw⟩ := HashMap.present_iff.1 hp
    have hm : (m k0).isSome = true := by rw [(ih k0 w).1 hw]; rfl
    rw [if_pos hm, hdup w hw, ih]
  · have hm : m k0 = none := by
      cases hmk : m k0 with
      | none => rfl
      | some w => exact absurd (HashMap.present_iff.2 ⟨w, (ih k0 w).2 hmk⟩) hp
    rw [hm, if_neg (by simp), hnew hp]
    by_cases e : k = k0
    · subst e
      rw [Function.update_same]
      constructor
      · rintro (h | ⟨_, h⟩)
        · exact absurd (HashMap.present_iff.2 ⟨v, h⟩) hp
        · rw [h]
      · intro h
        injection h with h
        exact Or.inr ⟨rfl, h.symm⟩
    · rw [Function.update_noteq e, ih]
      constructor
      · rintro (h | ⟨h, _⟩)
        · exact h
        · exact absurd h e
      · exact Or.inl

variable [Inhabited V]

theorem Tracked.reachable {t : HashMap K V} {m : K → Option V} (h : Tracked hash t m) :
    Reachable hash t := by
  induction h with
  | init => exact Reachable.init
  | insert t m data r _ h ih => exact Reachable.insert t data r ih h
  | erase t m key t1 _ h ih => exact Reachable.erase t key t1 ih h
  | index t m key r _ h ih => exact Reachable.index t key r ih h
  | clear t m _ ih => exact Reachable.clear t ih

theorem Reachable.tracked {t : HashMap K V} (h : Reachable hash t) :
    ∃ m, Tracked hash t m := by
  induction h with
  | init => exact ⟨_, Tracked.init⟩
  | insert t data r _ h ih =>
    obtain ⟨m, hm⟩ := ih
    exact ⟨_, Tracked.insert t m data r hm h⟩
  | erase t key t1 _ h ih =>
    obtain ⟨m, hm⟩ := ih
    exact ⟨_, Tracked.erase t m key t1 hm h⟩
  | index t key r _ h ih =>
    obtain ⟨m, hm⟩ := ih
    exact ⟨_, Tracked.index t m key r hm h⟩
  | clear t _ ih =>
    obtain ⟨m, hm⟩ := ih
    exact ⟨_, Tracked.clear t m hm⟩

/-- The table stores exactly the pairs inserted and not erased. -/
theorem Tracked.stored {t : HashMap K V} {m : K → Option V} (h : Tracked hash t m) :
    ∀ k v, t.Stored k v ↔ m k = some v := by
  induction h with
  | init =>
    intro k v
    constructor
    · intro h; exact absurd h (stored_empty _ k v)
    · intro h; cases h
  | insert t m data r ht h ih =>
    obtain ⟨k0, v0⟩ := data
    have H := ht.reachable.inv
    unfold RobinHood.insert at h
    apply tracked_insert_step ih
    · rintro w ⟨p, hp⟩
      obtain ⟨t1, loc, e1, _, _, _, e5, _⟩ := insertN_dup H hp v0 0
      rw [e1] at h
      injection h with h
      subst h
      exact e5
    · intro hp
      obtain ⟨t1, loc, e1, _, _, _, e5, _⟩ := insertN_fresh H hp v0 0
      rw [e1] at h
      injection h with h
      subst h
      exact e5
  | erase t m key t1 ht h ih =>
    have H := ht.reachable.inv
    intro k v
    by_cases hp : t.Present key
    · obtain ⟨w, p, hpw⟩ := HashMap.present_iff.1 hp
      obtain ⟨t2, e1, _, _, _, e5⟩ := erase_present H hpw
      rw [e1] at h
      injection h with h
      subst h
      rw [e5, ih]
      by_cases e : k = key
      · subst e
        rw [Function.update_same]
        constructor
        · rintro ⟨_, h⟩; exact absurd rfl h
        · intro h; cases h
      · rw [Function.update_noteq e]
        exact ⟨fun h => h.1, fun h => ⟨h, e⟩⟩
    · rw [erase_absent H hp] at h
      injection h with h
      subst h
      by_cases e : k = key
      · subst e
        rw [Function.update_same]
        constructor
        · intro h; exact absurd (HashMap.present_iff.2 ⟨v, h⟩) hp
        · intro h; cases h
      · rw [Function.update_noteq e, ih]
  | index t m key r ht h ih =>
    have H := ht.reachable.inv
    apply tracked_insert_step ih
    · rintro w ⟨p, hp⟩
      rw [index_present H hp] at h
      injection h with h
      subst h
      exact fun _ _ => Iff.rfl
    · intro hp
      obtain ⟨t1, loc, e1, e2⟩ := index_absent H hp
      rw [e2] at h
      injection h with h
      subst h
      unfold RobinHood.insert at e1
      obtain ⟨t2, loc2, f1, _, _, _, f5, _⟩ := insertN_fresh H hp (default : V) 0
      rw [f1] at e1
      injection e1 with e1
      injection e1 with e1 _
      subst e1
      exact f5
  | clear t m _ _ =>
    intro k v
    constructor
    · intro h; exact absurd h (stored_empty _ k v)
    · intro h; cases h

/-- C11: on a reachable table the traversal from `begin()` by `++` up to `end()`
returns; it visits exactly the occupied slots, in strictly increasing slot
index (so each once); the pairs it produces are the pairs the table stores,
which are the pairs inserted and not erased, no key twice; its length is
`size()`; and on a table with no occupied slot `begin()` is `end()`. -/
theorem C11_iteration_complete (hash : K → Nat) (t : HashMap K V) (ht : Reachable hash t) :
    ∃ l, traverse t = some l ∧
      l.Pairwise (fun x y => x.1 < y.1) ∧
      (∀ p k v, (p, (k, v)) ∈ l ↔ t.HoldsAt p k v) ∧
      (∀ k v, (k, v) ∈ l.map Prod.snd ↔ t.Stored k v) ∧
      (∃ m, Tracked hash t m) ∧
      (∀ m, Tracked hash t m → ∀ k v, (k, v) ∈ l.map Prod.snd ↔ m k = some v) ∧
      (l.map (fun x => x.2.1)).Nodup ∧ (l.map Prod.snd).Nodup ∧
      l.length = t.size ∧
      ((∀ i, i < t.capacity_ → (slot t.data_ i).free = true) → begin_ t = t.end_) := by
  have H := ht.inv
  obtain ⟨l, e1, e2, e3, e4⟩ := traverse_spec H
  have hpairs : ∀ k v, (k, v) ∈ l.map Prod.snd ↔ t.Stored k v := by
    intro k v
    rw [List.mem_map]
    constructor
    · rintro ⟨⟨p, kv⟩, hx, rfl⟩
      exact ⟨p, (e3 p k v).1 hx⟩
    · rintro ⟨p, hp⟩
      exact ⟨(p, (k, v)), (e3 p k v).2 hp, rfl⟩
  have hkeys : (l.map (fun x => x.2.1)).Nodup := by
    rw [List.Nodup, List.pairwise_map]
    refine List.Pairwise.imp_of_mem ?_ e2
    rintro ⟨p1, k1, v1⟩ ⟨p2, k2, v2⟩ h1 h2 hlt hk
    have hk2 : k1 = k2 := hk
    subst hk2
    have := (H.stored_unique ((e3 _ _ _).1 h1) ((e3 _ _ _).1 h2)).1
    have hlt2 : p1 < p2 := hlt
    omega
  have hnodup : (l.map Prod.snd).Nodup := by
    have h := hkeys
    rw [show (fun x : Nat × (K × V) => x.2.1) = Prod.fst ∘ Prod.snd from rfl,
      ← List.map_map] at h
    exact List.Nodup.of_map _ h
  exact ⟨l, e1, e2, e3, hpairs, ht.tracked,
    fun m hm k v => by rw [hpairs, hm.stored], hkeys, hnodup, e4, begin_of_empty t⟩

/-- C11 at the table `three_keys`, which the traversal visits at slots 1, 2, 3. -/
theorem C11_witness :
    Reachable id_hash three_keys ∧
      ∃ l, traverse three_keys = some l ∧
        l.Pairwise (fun x y => x.1 < y.1) ∧
        (∀ p k v, (p, (k, v)) ∈ l ↔ three_keys.HoldsAt p k v) ∧
        (∀ k v, (k, v) ∈ l.map Prod.snd ↔ three_keys.Stored k v) ∧
        (∃ m, Tracked id_hash three_keys m) ∧
        (∀ m, Tracked id_hash three_keys m → ∀ k v, (k, v) ∈ l.map Prod.snd ↔ m k = some v) ∧
        (l.map (fun x => x.2.1)).Nodup ∧ (l.map Prod.snd).Nodup ∧
        l.length = three_keys.size ∧
        ((∀ i, i < three_keys.capacity_ → (slot three_keys.data_ i).free = true) →
          begin_ three_keys = three_keys.end_) :=
  ⟨three_keys_reachable, C11_iteration_complete id_hash three_keys three_keys_reachable⟩

end Iteration

end RobinHood

namespace RobinHood

section Contract2

variable {K V : Type} {hash : K → Nat}

/-! ## Positions before a slot, and counting occupied slots -/

theorem mod_sub_of_add {c x j p : Nat} (hx : x < c) (hj : j < c) (h : (x + j) % c = p) :
    (p + c - j) % c = x := by
  by_cases hlt : x + j < c
  · rw [Nat.mod_eq_of_lt hlt] at h
    have e : p + c - j = x + c := by omega
    rw [e, Nat.add_mod_right, Nat.mod_eq_of_lt hx]
  · rw [Nat.mod_eq_sub_mod (by omega), Nat.mod_eq_of_lt (by omega)] at h
    have e : p + c - j = x := by omega
    rw [e, Nat.mod_eq_of_lt hx]

theorem occupied_ge_of_nodup :
    ∀ (l : List Nat) (a : List (Data K V)), l.Nodup →
      (∀ i, i ∈ l → i < a.length ∧ (slot a i).free = false) → l.length ≤ occupied a := by
  intro l
  induction l with
  | nil => intro a _ _; exact Nat.zero_le _
  | cons i rest ih =>
    intro a hnd hall
    obtain ⟨hi1, hi2⟩ := hall i (List.mem_cons_self _ _)
    obtain ⟨hnot, hrest⟩ := List.nodup_cons.1 hnd
    have hcount := countP_set (fun s : Data K V => !s.free) a i {} hi1
    simp only [hi2] at hcount
    have hcount2 : occupied (a.set i {}) + 1 = occupied a := by
      unfold occupied
      simpa using hcount
    have := ih (a.set i {}) hrest (by
      intro j hj
      have hne : i ≠ j := fun e => hnot (by rw [e]; exact hj)
      obtain ⟨h1, h2⟩ := hall j (List.mem_cons_of_mem _ hj)
      rw [List.length_set, slot_set_ne a i j _ hne]
      exact ⟨h1, h2⟩)
    rw [List.length_cons]
    omega

/-- An occupied slot with `psl = d` closes a run of `d + 1` occupied slots. -/
theorem AInv.psl_lt_occupied {c : Nat} {a : List (Data K V)} (H : AInv hash c a) (hc : 0 < c)
    {p : Nat} {k : K} {v : V} (hp : Holds c a p k v) : (slot a p).psl + 1 ≤ occupied a := by
  obtain ⟨_, hlt, _⟩ := H.key_info hp
  have hnd : ((List.range ((slot a p).psl + 1)).map (fun j => (hash k + j) % c)).Nodup := by
    refine List.Nodup.map_on ?_ (List.nodup_range _)
    intro x hx y hy e
    rw [List.mem_range] at hx hy
    exact mod_add_inj (by omega) (by omega) e
  have := occupied_ge_of_nodup _ a hnd (by
    intro i hi
    obtain ⟨j, hj, rfl⟩ := List.mem_map.1 hi
    rw [List.mem_range] at hj
    obtain ⟨h1, _⟩ := H.chain hc hp ((slot a p).psl - j) j (by omega)
    exact ⟨by rw [H.len]; exact Nat.mod_lt _ hc, h1⟩)
  rw [List.length_map, List.length_range] at this
  exact this

variable [DecidableEq K] [Inhabited V]

/-! ## `operator[]`, the concrete scenario, and the Robin Hood invariants -/

/-- C12: on a reachable table, `operator[]` on a present key returns a reference
into the slot that holds the key and leaves the slot array, capacity and size
as they were; on an absent key it behaves as `insert(k, ValueType())`:
afterwards `at(k)` is the default value, `size()` has grown by one, and the
reference designates the value of the slot that now holds `k`. -/
theorem C12_index_contract (hash : K → Nat) (t : HashMap K V) (ht : Reachable hash t)
    (k : K) :
    (t.Present k → ∃ p v, t.HoldsAt p k v ∧ index hash t k = some (t, p)) ∧
      (¬ t.Present k →
        ∃ t1 loc, index hash t k = some (t1, loc) ∧
          insert hash t (k, default) = some (t1, (loc, true)) ∧
          t1.HoldsAt loc k default ∧ at_ hash t1 k = some (Except.ok default) ∧
          t1.size = t.size + 1) := by
  have H := ht.inv
  constructor
  · intro hp
    obtain ⟨v, p, hpv⟩ := HashMap.present_iff.1 hp
    exact ⟨p, v, hpv, index_present H hpv⟩
  · intro hp
    obtain ⟨t1, loc, e1, e2⟩ := index_absent H hp
    obtain ⟨t2, loc2, f1, f2, f3, f4, _⟩ := insertN_fresh H hp (default : V) 0
    have e3 := e1
    unfold insert at e3
    rw [f1] at e3
    injection e3 with e3
    injection e3 with e3 e4
    injection e4 with e4 _
    subst e3 e4
    exact ⟨t2, loc2, e2, e1, f4, at_present f2 f4, f3⟩

/-- C12 at the table `three_keys` and the key 25, which it does not hold. -/
theorem C12_witness :
    Reachable id_hash three_keys ∧
      (three_keys.Present 25 →
        ∃ p v, three_keys.HoldsAt p 25 v ∧ index id_hash three_keys 25 = some (three_keys, p)) ∧
      (¬ three_keys.Present 25 →
        ∃ t1 loc, index id_hash three_keys 25 = some (t1, loc) ∧
          insert id_hash three_keys (25, default) = some (t1, (loc, true)) ∧
          t1.HoldsAt loc 25 default ∧ at_ id_hash t1 25 = some (Except.ok default) ∧
          t1.size = three_keys.size + 1) :=
  ⟨three_keys_reachable, C12_index_contract id_hash three_keys three_keys_reachable 25⟩

/-- C13: with the identity hasher, a fresh table has capacity 12; inserting
`(k, 10 * k)` for `k = 1, ..., 10` in order gives `size() == 10` and
`at(5) == 50`; then `erase(5)` gives `find(5) == end()` and `size() == 9`; then
`insert(5, 99)` gives `at(5) == 99` and `size() == 10`. -/
theorem C13_concrete_scenario :
    (HashMap.init : HashMap Nat Nat).capacity_ = 12 ∧
      insert_all id_hash (scenario_pairs 10) HashMap.init = some ten_keys ∧
      ten_keys.size = 10 ∧ at_ id_hash ten_keys 5 = some (Except.ok 50) ∧
      erase id_hash ten_keys 5 = some ten_keys_erased ∧
      find id_hash ten_keys_erased 5 = some ten_keys_erased.end_ ∧
      ten_keys_erased.size = 9 ∧
      insert id_hash ten_keys_erased (5, 99) = some (ten_keys_again, (5, true)) ∧
      at_ id_hash ten_keys_again 5 = some (Except.ok 99) ∧ ten_keys_again.size = 10 :=
  ⟨rfl, by rfl, rfl, by rfl, by rfl, by rfl, rfl, by rfl, by rfl, rfl⟩

/-- C14: on a reachable table, for an occupied slot at index `p` with `psl = d`
and every `j <= d`, the slot at `(p - j) mod capacity` is occupied and has
`psl >= d - j`. -/
theorem C14_robin_hood_invariant (hash : K → Nat) (t : HashMap K V) (ht : Reachable hash t)
    (p : Nat) (hp : p < t.capacity_) (hocc : (slot t.data_ p).free = false)
    (j : Nat) (hj : j ≤ (slot t.data_ p).psl) :
    (slot t.data_ ((p + t.capacity_ - j) % t.capacity_)).free = false ∧
      (slot t.data_ p).psl - j ≤ (slot t.data_ ((p + t.capacity_ - j) % t.capacity_)).psl := by
  have H := ht.inv
  obtain ⟨k, v, hs⟩ := H.arr.holds_of_occupied hp hocc
  obtain ⟨_, hlt, hmod⟩ := H.arr.key_info hs
  have hchain := H.arr.chain H.cap_pos hs j ((slot t.data_ p).psl - j) (by omega)
  have hx : ((hash k + ((slot t.data_ p).psl - j)) % t.capacity_ + j) % t.capacity_ = p := by
    rw [Nat.mod_add_mod]
    have e : hash k + ((slot t.data_ p).psl - j) + j = hash k + (slot t.data_ p).psl := by
      omega
    rw [e]
    exact hmod
  rw [mod_sub_of_add (Nat.mod_lt _ H.cap_pos) (by omega) hx]
  exact hchain

/-- C14 at the table `three_keys`, its slot 3 (key 2, `psl = 1`) and `j = 1`. -/
theorem C14_witness :
    Reachable id_hash three_keys ∧ 3 < three_keys.capacity_ ∧
      (slot three_keys.data_ 3).free = false ∧ 1 ≤ (slot three_keys.data_ 3).psl ∧
      (slot three_keys.data_ ((3 + three_keys.capacity_ - 1) % three_keys.capacity_)).free
          = false ∧
      (slot three_keys.data_ 3).psl - 1
        ≤ (slot three_keys.data_ ((3 + three_keys.capacity_ - 1) % three_keys.capacity_)).psl :=
  ⟨three_keys_reachable, by decide, by decide, by decide,
    C14_robin_hood_invariant id_hash three_keys three_keys_reachable 3 (by decide) (by decide) 1
      (by decide)⟩

/-- C15: on a reachable table every occupied slot at index `p` owns a pair,
caches the hash of its key, and has
`psl = (p - stored_hash mod capacity) mod capacity`. -/
theorem C15_metadata_consistent (hash : K → Nat) (t : HashMap K V) (ht : Reachable hash t)
    (p : Nat) (hp : p < t.capacity_) (hocc : (slot t.data_ p).free = false) :
    ∃ k v, (slot t.data_ p).data = some (k, v) ∧ (slot t.data_ p).hash_key = hash k ∧
      (slot t.data_ p).psl
        = (p + t.capacity_ - (slot t.data_ p).hash_key % t.capacity_) % t.capacity_ := by
  have H := ht.inv
  obtain ⟨k, v, hs⟩ := H.arr.holds_of_occupied hp hocc
  obtain ⟨hh, hlt, hmod⟩ := H.arr.key_info hs
  refine ⟨k, v, hs.2.2, hh, ?_⟩
  have hx : ((slot t.data_ p).psl + hash k % t.capacity_) % t.capacity_ = p := by
    rw [Nat.add_mod_mod, Nat.add_comm]
    exact hmod
  rw [hh]
  exact (mod_sub_of_add hlt (Nat.mod_lt _ H.cap_pos) hx).symm

/-- C15 at the table `three_keys` and its slot 2, which holds key 13 one slot
after its home slot 1. -/
theorem C15_witness :
    Reachable id_hash three_keys ∧ 2 < three_keys.capacity_ ∧
      (slot three_keys.data_ 2).free = false ∧
      ∃ k v, (slot three_keys.data_ 2).data = some (k, v) ∧
        (slot three_keys.data_ 2).hash_key = id_hash k ∧
        (slot three_keys.data_ 2).psl
          = (2 + three_keys.capacity_ - (slot three_keys.data_ 2).hash_key
              % three_keys.capacity_) % three_keys.capacity_ :=
  ⟨three_keys_reachable, by decide, by decide,
    C15_metadata_consistent id_hash three_keys three_keys_reachable 2 (by decide) (by decide)⟩

/-- C16: on a reachable table the `psl` of an occupied slot is at most
`size() - 1`, hence at most `size()`. -/
theorem C16_psl_bound (hash : K → Nat) (t : HashMap K V) (ht : Reachable hash t)
    (p : Nat) (hp : p < t.capacity_) (hocc : (slot t.data_ p).free = false) :
    (slot t.data_ p).psl ≤ t.size - 1 ∧ (slot t.data_ p).psl ≤ t.size ∧ 1 ≤ t.size := by
  have H := ht.inv
  obtain ⟨k, v, hs⟩ := H.arr.holds_of_occupied hp hocc
  have h := H.arr.psl_lt_occupied H.cap_pos hs
  rw [H.cnt] at h
  unfold HashMap.size
  omega

/-- C16 at the table `three_keys` and its slot 3. -/
theorem C16_witness :
    Reachable id_hash three_keys ∧ 3 < three_keys.capacity_ ∧
      (slot three_keys.data_ 3).free = false ∧
      (slot three_keys.data_ 3).psl ≤ three_keys.size - 1 ∧
      (slot three_keys.data_ 3).psl ≤ three_keys.size ∧ 1 ≤ three_keys.size :=
  ⟨three_keys_reachable, by decide, by decide,
    C16_psl_bound id_hash three_keys three_keys_reachable 3 (by decide) (by decide)⟩

end Contract2

end RobinHood

namespace RobinHood

section Growth

variable {K V : Type} {hash : K → Nat} [DecidableEq K]

/-! ## Capacity under the operations -/

theorem increase_capacity_depth (hash : K → Nat) (d : Nat) (t : HashMap K V) :
    increase_capacity_with (insertN hash (d + 1)) t
      = increase_capacity_with (insertN hash 1) t := by
  unfold increase_capacity_with
  exact reinsert_depth t.data_ t.capacity_ d t.capacity_ 0 _ (by omega) rfl (le_refl _)

theorem reinsert_fit (old : List (Data K V)) (c : Nat) :
    ∀ (n i : Nat) (t : HashMap K V), i + n = c → t.capacity_ = 2 * c + 1 → t.size_ ≤ i →
      reinsert (insert_fit hash) old n i t = reinsert (insertN hash 1) old n i t := by
  intro n
  induction n with
  | zero =>
    intro i t _ _ _
    rw [reinsert, reinsert]
  | succ n ih =>
    intro i t hi hcap hsize
    have hfit : ¬ 4 * t.capacity_ < 5 * (t.size_ + 1) := by omega
    rw [reinsert, reinsert]
    split
    · exact ih (i + 1) t (by omega) hcap (by omega)
    · split
      · rfl
      · rename_i kv _
        have e1 : insert_fit hash t kv = insertN hash 1 t kv := by
          unfold insert_fit insert
          rw [if_neg hfit, insertN_fit_eq hfit 1 kv, insertN_fit_eq hfit 0 kv]
        rw [e1]
        split
        · rfl
        · rename_i r hr
          rw [insertN_fit_eq hfit 0 kv] at hr
          obtain ⟨h1, h2⟩ := insert_loop_shape _ _ _ _ _ _ _ hr
          exact ih (i + 1) r.1 (by omega) (by rw [h1, hcap]) (by omega)

/-- No re-insertion of a resize fires the load-factor test. -/
theorem increase_capacity_fit (hash : K → Nat) (t : HashMap K V) :
    increase_capacity_with (insert_fit hash) t = increase_capacity hash t := by
  have h1 : increase_capacity_with (insert_fit hash) t
      = increase_capacity_with (insertN hash 1) t := by
    unfold increase_capacity_with
    exact reinsert_fit t.data_ t.capacity_ t.capacity_ 0 _ (by omega) rfl (le_refl _)
  unfold increase_capacity insert
  rw [h1, increase_capacity_depth hash 1 t]

theorem insert_capacity {t : HashMap K V} (H : Inv hash t) {data : K × V}
    {r : HashMap K V × (Nat × Bool)} (h : insert hash t data = some r) :
    r.1.capacity_ =
      if 4 * t.capacity_ < 5 * (t.size_ + 1) then 2 * t.capacity_ + 1 else t.capacity_ := by
  obtain ⟨k, v⟩ := data
  unfold insert at h
  by_cases hp : t.Present k
  · obtain ⟨w, p, hp⟩ := HashMap.present_iff.1 hp
    obtain ⟨t1, loc, e1, _, _, _, _, e6⟩ := insertN_dup H hp v 0
    rw [e1] at h
    injection h with h
    subst h
    exact e6
  · obtain ⟨t1, loc, e1, _, _, _, _, e6⟩ := insertN_fresh H hp v 0
    rw [e1] at h
    injection h with h
    subst h
    exact e6

theorem erase_capacity {t : HashMap K V} (H : Inv hash t) {key : K} {t1 : HashMap K V}
    (h : erase hash t key = some t1) : t1.capacity_ = t.capacity_ := by
  by_cases hp : t.Present key
  · obtain ⟨w, p, hp⟩ := HashMap.present_iff.1 hp
    obtain ⟨t2, e1, _, e3, _⟩ := erase_present H hp
    rw [e1] at h
    injection h with h
    subst h
    exact e3
  · rw [erase_absent H hp] at h
    injection h with h
    subst h
    rfl

theorem index_capacity [Inhabited V] {t : HashMap K V} (H : Inv hash t) {key : K}
    {r : HashMap K V × Nat} (h : index hash t key = some r) :
    r.1.capacity_ = t.capacity_ ∨ r.1.capacity_ = 2 * t.capacity_ + 1 := by
  by_cases hp : t.Present key
  · obtain ⟨w, p, hp⟩ := HashMap.present_iff.1 hp
    rw [index_present H hp] at h
    injection h with h
    subst h
    exact Or.inl rfl
  · obtain ⟨t1, loc, e1, e2⟩ := index_absent H hp
    rw [e2] at h
    injection h with h
    subst h
    have := insert_capacity H e1
    split at this
    · exact Or.inr this
    · exact Or.inl this

theorem capacity_form_step {c n : Nat} (h : c = 13 * 2 ^ n - 1) :
    2 * c + 1 = 13 * 2 ^ (n + 1) - 1 := by
  have hpos : 1 ≤ 2 ^ n := Nat.one_le_two_pow
  rw [pow_succ, h]
  omega

theorem Reachable.capacity_form [Inhabited V] {t : HashMap K V} (ht : Reachable hash t) :
    ∃ n, t.capacity_ = 13 * 2 ^ n - 1 := by
  induction ht with
  | init => exact ⟨0, rfl⟩
  | insert t data r ht h ih =>
    obtain ⟨n, hn⟩ := ih
    have := insert_capacity ht.inv h
    split at this
    · exact ⟨n + 1, by rw [this]; exact capacity_form_step hn⟩
    · exact ⟨n, by rw [this]; exact hn⟩
  | erase t key t1 ht h ih =>
    obtain ⟨n, hn⟩ := ih
    exact ⟨n, by rw [erase_capacity ht.inv h]; exact hn⟩
  | index t key r ht h ih =>
    obtain ⟨n, hn⟩ := ih
    rcases index_capacity ht.inv h with e | e
    · exact ⟨n, by rw [e]; exact hn⟩
    · exact ⟨n + 1, by rw [e]; exact capacity_form_step hn⟩
  | clear t _ _ => exact ⟨0, rfl⟩

theorem lookup_congr {t t1 : HashMap K V} (H : Inv hash t) (H1 : Inv hash t1) {k : K}
    (h : ∀ v, t1.Stored k v ↔ t.Stored k v) :
    at_ hash t1 k = at_ hash t k ∧
      (find hash t1 k = some t1.end_ ↔ find hash t k = some t.end_) := by
  by_cases hp : t.Present k
  · obtain ⟨w, p, hpw⟩ := HashMap.present_iff.1 hp
    obtain ⟨p1, hp1⟩ := (h w).2 ⟨p, hpw⟩
    rw [at_present H hpw, at_present H1 hp1, find_present H hpw, find_present H1 hp1]
    refine ⟨rfl, ?_⟩
    have h1 := hpw.1
    have h2 := hp1.1
    unfold HashMap.end_
    constructor
    · intro e; injection e with e; omega
    · intro e; injection e with e; omega
  · have hp1 : ¬ t1.Present k := by
      rw [HashMap.present_iff]
      rintro ⟨v, hv⟩
      exact hp (HashMap.present_iff.2 ⟨v, (h v).1 hv⟩)
    rw [at_absent H hp, at_absent H1 hp1, find_absent H hp, find_absent H1 hp1]
    exact ⟨rfl, iff_of_true rfl rfl⟩

variable [Inhabited V]

theorem reachable_insert_all {t t1 : HashMap K V} (l : List (K × V)) (ht : Reachable hash t)
    (h : insert_all hash l t = some t1) : Reachable hash t1 := by
  induction l generalizing t with
  | nil =>
    rw [insert_all] at h
    injection h with h
    rw [← h]
    exact ht
  | cons kv rest ih =>
    rw [insert_all] at h
    split at h
    · cases h
    · rename_i r hr
      exact ih (Reachable.insert t kv r ht hr) h

theorem nine_keys_reachable : Reachable id_hash nine_keys :=
  reachable_insert_all (scenario_pairs 9) Reachable.init (by rfl)

/-! ## Resize growth, the frame of `insert`, and the order of its two tests -/

/-- C17: on a reachable table of capacity `c` the internal resize returns a
table of capacity `2 * c + 1`, odd, larger and not zero, and no re-insertion it
makes fires the load-factor test (the resize under the monitor `insert_fit`
returns the same table); the capacity of a reachable table is
`13 * 2 ^ n - 1` for some `n` (12 for `n = 0`); `insert` and `operator[]`
never lower the capacity, `erase` keeps it, and `clear` sets it to 12. -/
theorem C17_resize_growth (hash : K → Nat) (t : HashMap K V) (ht : Reachable hash t) :
    (∃ t1, increase_capacity hash t = some t1 ∧ t1.capacity_ = 2 * t.capacity_ + 1 ∧
        t1.capacity_ % 2 = 1 ∧ t.capacity_ < t1.capacity_ ∧ t1.capacity_ ≠ 0 ∧
        increase_capacity_with (insert_fit hash) t = some t1) ∧
      (∃ n, t.capacity_ = 13 * 2 ^ n - 1) ∧
      (∀ data r, insert hash t data = some r → t.capacity_ ≤ r.1.capacity_) ∧
      (∀ key t1, erase hash t key = some t1 → t1.capacity_ = t.capacity_) ∧
      (∀ key r, index hash t key = some r → t.capacity_ ≤ r.1.capacity_) ∧
      (clear t).capacity_ = 12 := by
  have H := ht.inv
  obtain ⟨t1, e1, _, e3, _⟩ := increase_capacity_with_spec H 1
  refine ⟨⟨t1, e1, e3, by omega, by omega, by omega, ?_⟩, ht.capacity_form, ?_, ?_, ?_, rfl⟩
  · rw [increase_capacity_fit]
    exact e1
  · intro data r h
    have := insert_capacity H h
    split at this <;> omega
  · intro key t2 h
    exact erase_capacity H h
  · intro key r h
    rcases index_capacity H h with e | e <;> omega

/-- C17 at the table `nine_keys`, which the next `insert` resizes. -/
theorem C17_witness :
    Reachable id_hash nine_keys ∧
      (∃ t1, increase_capacity id_hash nine_keys = some t1 ∧
        t1.capacity_ = 2 * nine_keys.capacity_ + 1 ∧
        t1.capacity_ % 2 = 1 ∧ nine_keys.capacity_ < t1.capacity_ ∧ t1.capacity_ ≠ 0 ∧
        increase_capacity_with (insert_fit id_hash) nine_keys = some t1) ∧
      (∃ n, nine_keys.capacity_ = 13 * 2 ^ n - 1) ∧
      (∀ data r, insert id_hash nine_keys data = some r →
        nine_keys.capacity_ ≤ r.1.capacity_) ∧
      (∀ key t1, erase id_hash nine_keys key = some t1 →
        t1.capacity_ = nine_keys.capacity_) ∧
      (∀ key r, index id_hash nine_keys key = some r →
        nine_keys.capacity_ ≤ r.1.capacity_) ∧
      (clear nine_keys).capacity_ = 12 :=
  ⟨nine_keys_reachable, C17_resize_growth id_hash nine_keys nine_keys_reachable⟩

/-- C19: on a reachable table `insert(k, v)` returns, and for every other key
the lookup gives afterwards what it gave before: the same stored values, the
same result of `at`, and `find` is the end sentinel after exactly when it was
before; this holds with or without exchanges and with or without a resize. -/
theorem C19_insert_frame (hash : K → Nat) (t : HashMap K V) (ht : Reachable hash t)
    (k : K) (v : V) :
    ∃ t1 r, insert hash t (k, v) = some (t1, r) ∧
      ∀ k1, k1 ≠ k →
        (∀ w, t1.Stored k1 w ↔ t.Stored k1 w) ∧ at_ hash t1 k1 = at_ hash t k1 ∧
          (find hash t1 k1 = some t1.end_ ↔ find hash t k1 = some t.end_) := by
  have H := ht.inv
  by_cases hp : t.Present k
  · obtain ⟨w, p, hpw⟩ := HashMap.present_iff.1 hp
    obtain ⟨t1, loc, e1, e2, _, _, e5, _⟩ := insertN_dup H hpw v 0
    refine ⟨t1, (loc, false), e1, fun k1 _ => ?_⟩
    have hst : ∀ w, t1.Stored k1 w ↔ t.Stored k1 w := fun w => e5 k1 w
    exact ⟨hst, lookup_congr H e2 hst⟩
  · obtain ⟨t1, loc, e1, e2, _, _, e5, _⟩ := insertN_fresh H hp v 0
    refine ⟨t1, (loc, true), e1, fun k1 hne => ?_⟩
    have hst : ∀ w, t1.Stored k1 w ↔ t.Stored k1 w := by
      intro w
      rw [e5]
      constructor
      · rintro (h | ⟨h, _⟩)
        · exact h
        · exact absurd h hne
      · exact Or.inl
    exact ⟨hst, lookup_congr H e2 hst⟩

/-- C19 at the table `nine_keys` and the new key 10, whose insertion resizes. -/
theorem C19_witness :
    Reachable id_hash nine_keys ∧
      ∃ t1 r, insert id_hash nine_keys (10, 100) = some (t1, r) ∧
        ∀ k1, k1 ≠ 10 →
          (∀ w, t1.Stored k1 w ↔ nine_keys.Stored k1 w) ∧
            at_ id_hash t1 k1 = at_ id_hash nine_keys k1 ∧
            (find id_hash t1 k1 = some t1.end_ ↔
              find id_hash nine_keys k1 = some nine_keys.end_) :=
  ⟨nine_keys_reachable, C19_insert_frame id_hash nine_keys nine_keys_reachable 10 100⟩

/-- C20: the load-factor test of `insert` runs before the duplicate test.  The
reachable table `nine_keys` (nine keys, capacity 12) holds key 1, and
`insert(1, 0)` on it returns `inserted = false` with a table of capacity 25, a
rebuilt slot array, the same size and the same pairs.  On every reachable
table, `insert` returns a table of another capacity exactly when
`size + 1 > 0.8 * capacity` held on entry, whatever the key, and that capacity
is `2 * capacity + 1`. -/
theorem C20_resize_before_duplicate_test (hash : K → Nat) (t : HashMap K V)
    (ht : Reachable hash t) (k : K) (v : V) :
    (Reachable id_hash nine_keys ∧ nine_keys.Present 1 ∧
        insert id_hash nine_keys (1, 0) = some (nine_keys_grown, (1, false)) ∧
        nine_keys.capacity_ = 12 ∧ nine_keys_grown.capacity_ = 25 ∧
        nine_keys_grown.data_ ≠ nine_keys.data_ ∧ nine_keys_grown.size = nine_keys.size ∧
        ∀ k1 v1, nine_keys_grown.Stored k1 v1 ↔ nine_keys.Stored k1 v1) ∧
      ∃ t1 r, insert hash t (k, v) = some (t1, r) ∧
        (t1.capacity_ ≠ t.capacity_ ↔ 4 * t.capacity_ < 5 * (t.size + 1)) ∧
        (t1.capacity_ ≠ t.capacity_ → t1.capacity_ = 2 * t.capacity_ + 1) := by
  constructor
  · have hev : insert id_hash nine_keys (1, 0) = some (nine_keys_grown, (1, false)) := by rfl
    refine ⟨nine_keys_reachable, by decide, hev, rfl, rfl, by decide, rfl, ?_⟩
    obtain ⟨t1, loc, e1, _, _, _, e5, _⟩ :=
      insertN_dup nine_keys_reachable.inv
        (show Holds nine_keys.capacity_ nine_keys.data_ 1 1 10 by decide) 0 0
    unfold insert at hev
    rw [hev] at e1
    injection e1 with e1
    injection e1 with e1 _
    rw [e1]
    exact e5
  · have H := ht.inv
    have hcap : ∀ r, insert hash t (k, v) = some r →
        (r.1.capacity_ ≠ t.capacity_ ↔ 4 * t.capacity_ < 5 * (t.size + 1)) ∧
          (r.1.capacity_ ≠ t.capacity_ → r.1.capacity_ = 2 * t.capacity_ + 1) := by
      intro r h
      have hc := insert_capacity H h
      have hpos := H.cap_pos
      unfold HashMap.size
      split at hc
      · rename_i hg
        exact ⟨⟨fun _ => hg, fun _ => by omega⟩, fun _ => hc⟩
      · rename_i hg
        exact ⟨⟨fun hne => absurd hc hne, fun h2 => absurd h2 hg⟩, fun hne => absurd hc hne⟩
    by_cases hp : t.Present k
    · obtain ⟨w, p, hpw⟩ := HashMap.present_iff.1 hp
      obtain ⟨t1, loc, e1, _⟩ := insertN_dup H hpw v 0
      exact ⟨t1, (loc, false), e1, hcap _ e1⟩
    · obtain ⟨t1, loc, e1, _⟩ := insertN_fresh H hp v 0
      exact ⟨t1, (loc, true), e1, hcap _ e1⟩

/-- C20 at the table `nine_keys` and its key 1. -/
theorem C20_witness :
    Reachable id_hash nine_keys ∧
      (Reachable id_hash nine_keys ∧ nine_keys.Present 1 ∧
        insert id_hash nine_keys (1, 0) = some (nine_keys_grown, (1, false)) ∧
        nine_keys.capacity_ = 12 ∧ nine_keys_grown.capacity_ = 25 ∧
        nine_keys_grown.data_ ≠ nine_keys.data_ ∧ nine_keys_grown.size = nine_keys.size ∧
        ∀ k1 v1, nine_keys_grown.Stored k1 v1 ↔ nine_keys.Stored k1 v1) ∧
      ∃ t1 r, insert id_hash nine_keys (1, 0) = some (t1, r) ∧
        (t1.capacity_ ≠ nine_keys.capacity_ ↔
          4 * nine_keys.capacity_ < 5 * (nine_keys.size + 1)) ∧
        (t1.capacity_ ≠ nine_keys.capacity_ → t1.capacity_ = 2 * nine_keys.capacity_ + 1) :=
  ⟨nine_keys_reachable, C20_resize_before_duplicate_test id_hash nine_keys nine_keys_reachable 1 0⟩

end Growth

end RobinHood

namespace RobinHood

section Traces

variable {K V : Type} {hash : K → Nat} {c : Nat}

/-! ## Where and when the three loops stop -/

theorem erase_loop_trace (p0 : Nat) (hc : 0 < c) :
    ∀ (fuel : Nat) (a : List (Data K V)) (j : Nat) (a1 : List (Data K V)), a.length = c →
      (slot a ((p0 + j) % c)).free = true → (slot a ((p0 + j) % c)).psl = 0 →
      erase_loop c fuel a ((p0 + j) % c) = some a1 →
      ∃ s, j ≤ s ∧ s < j + fuel ∧ (slot a1 ((p0 + s) % c)).free = true ∧
        (slot a1 (advance c ((p0 + s) % c))).psl = 0 := by
  intro fuel
  induction fuel with
  | zero =>
    intro a j a1 _ _ _ h
    rw [erase_loop] at h
    cases h
  | succ f ih =>
    intro a j a1 hlen hfree hpsl h
    have hpos : (p0 + j) % c < c := Nat.mod_lt _ hc
    rw [erase_loop, advance_eq_mod hpos] at h
    split at h
    · rename_i hgt
      have hne : (p0 + j) % c ≠ advance c ((p0 + j) % c) := by
        intro e
        rw [← e, hpsl] at hgt
        exact absurd hgt (Nat.lt_irrefl 0)
      have hgap := shift_slot_gap (a := a) hne (by rw [hlen]; exact advance_lt hpos)
      rw [mod_succ_eq hc] at h hgap
      obtain ⟨s, s1, s2, s3, s4⟩ := ih _ (j + 1) a1
        (by rw [shift_length]; exact hlen) (by rw [hgap]; exact hfree)
        (by rw [hgap]; exact hpsl) h
      exact ⟨s, by omega, by omega, s3, s4⟩
    · rename_i hgt
      injection h with h
      subst h
      exact ⟨j, le_refl _, by omega, hfree, by omega⟩

variable [DecidableEq K]

theorem find_loop_trace (hk : Nat) (key : K) (a : List (Data K V)) (h0 : Nat) (hc : 0 < c) :
    ∀ (fuel j p : Nat), find_loop hk key a c fuel ((h0 + j) % c) = some p →
      ∃ s, j ≤ s ∧ s < j + fuel ∧ p = (h0 + s) % c ∧
        (∀ m, j ≤ m → m < s → (slot a ((h0 + m) % c)).free = false ∧
          (hk ≠ (slot a ((h0 + m) % c)).hash_key ∨
            ∀ w, (slot a ((h0 + m) % c)).data ≠ some (key, w))) ∧
        ((slot a p).free = true ∨
          ((slot a p).free = false ∧ hk = (slot a p).hash_key ∧
            ∃ w, (slot a p).data = some (key, w))) := by
  intro fuel
  induction fuel with
  | zero =>
    intro j p h
    rw [find_loop] at h
    cases h
  | succ f ih =>
    intro j p h
    rw [find_loop] at h
    have hstep : ∀ (hocc : (slot a ((h0 + j) % c)).free = false)
        (hno : hk ≠ (slot a ((h0 + j) % c)).hash_key ∨
          ∀ w, (slot a ((h0 + j) % c)).data ≠ some (key, w))
        (hrec : find_loop hk key a c f (advance c ((h0 + j) % c)) = some p),
        ∃ s, j ≤ s ∧ s < j + (f + 1) ∧ p = (h0 + s) % c ∧
          (∀ m, j ≤ m → m < s → (slot a ((h0 + m) % c)).free = false ∧
            (hk ≠ (slot a ((h0 + m) % c)).hash_key ∨
              ∀ w, (slot a ((h0 + m) % c)).data ≠ some (key, w))) ∧
          ((slot a p).free = true ∨
            ((slot a p).free = false ∧ hk = (slot a p).hash_key ∧
              ∃ w, (slot a p).data = some (key, w))) := by
      intro hocc hno hrec
      rw [mod_succ_eq hc] at hrec
      obtain ⟨s, s1, s2, s3, s4, s5⟩ := ih (j + 1) p hrec
      refine ⟨s, by omega, by omega, s3, ?_, s5⟩
      intro m h1 h2
      by_cases e : m = j
      · rw [e]; exact ⟨hocc, hno⟩
      · exact s4 m (by omega) h2
    split at h
    · rename_i hfree
      injection h with h
      subst h
      exact ⟨j, le_refl _, by omega, rfl, fun m h1 h2 => by omega, Or.inl hfree⟩
    · rename_i hfree
      have hocc : (slot a ((h0 + j) % c)).free = false := by simpa using hfree
      split at h
      · rename_i hne
        exact hstep hocc (Or.inl hne) h
      · rename_i heq
        have heq2 : hk = (slot a ((h0 + j) % c)).hash_key := by
          by_contra hcon
          exact heq hcon
        split at h
        · cases h
        · rename_i kv hd
          split at h
          · rename_i hkey
            injection h with h
            subst h
            refine ⟨j, le_refl _, by omega, rfl, fun m h1 h2 => by omega,
              Or.inr ⟨hocc, heq2, kv.2, ?_⟩⟩
            rw [hd, hkey]
          · rename_i hkey
            refine hstep hocc (Or.inr ?_) h
            intro w hw
            rw [hd] at hw
            injection hw with hw
            exact hkey (by rw [hw])

theorem same_key_true {key : K} {el s : Data K V} (h : same_key key el s = some true) :
    ∃ w, s.data = some (key, w) := by
  unfold same_key at h
  split at h
  · split at h
    · cases h
    · rename_i kv hd
      injection h with h
      have hk : key = kv.1 := by simpa using h
      exact ⟨kv.2, by rw [hd, hk]⟩
  · cases h

theorem insert_loop_trace (key : K) (h0 : Nat) (hc : 0 < c) :
    ∀ (fuel : Nat) (a : List (Data K V)) (n : Nat) (el : Data K V) (j : Nat) (res : Nat × Bool)
      (r : HashMap K V × (Nat × Bool)), el.free = false → a.length = c → j + fuel ≤ c →
      insert_loop key fuel ⟨a, c, n⟩ el ((h0 + j) % c) res = some r →
      ∃ s, j ≤ s ∧ s < j + fuel ∧
        (∀ m, j ≤ m → m < s → (slot a ((h0 + m) % c)).free = false) ∧
        (∀ i, (∀ m, j ≤ m → m ≤ s → i ≠ (h0 + m) % c) → slot r.1.data_ i = slot a i) ∧
        ((r.2.2 = true ∧ (slot a ((h0 + s) % c)).free = true ∧
            (slot r.1.data_ ((h0 + s) % c)).free = false) ∨
          (r.2.2 = false ∧ res.2 = false ∧ r.1 = ⟨a, c, n⟩ ∧ r.2.1 = (h0 + s) % c ∧
            (slot a ((h0 + s) % c)).free = false ∧
            ∃ w, (slot a ((h0 + s) % c)).data = some (key, w))) := by
  intro fuel
  induction fuel with
  | zero =>
    intro a n el j res r _ _ _ h
    rw [insert_loop] at h
    cases h
  | succ f ih =>
    intro a n el j res r hel hlen hfuel h
    have hpos : (h0 + j) % c < c := Nat.mod_lt _ hc
    have hother : ∀ m, j + 1 ≤ m → m < c → (h0 + j) % c ≠ (h0 + m) % c := by
      intro m h1 h2 e
      have := mod_add_inj (by omega) h2 e
      omega
    rw [insert_loop] at h
    dsimp only at h
    split at h
    · rename_i hfree
      injection h with h
      subst h
      refine ⟨j, le_refl _, by omega, fun m h1 h2 => by omega, ?_, Or.inl ⟨?_, hfree, ?_⟩⟩
      · intro i hi
        exact slot_set_ne a _ i el (Ne.symm (hi j (le_refl _) (le_refl _)))
      · obtain ⟨r1, r2⟩ := res
        cases r2 <;> rfl
      · show (slot (a.set ((h0 + j) % c) el) ((h0 + j) % c)).free = false
        rw [slot_set_eq a _ el (by rw [hlen]; exact hpos)]
        exact hel
    · rename_i hfree
      have hocc : (slot a ((h0 + j) % c)).free = false := by simpa using hfree
      split at h
      · cases h
      · rename_i hm
        injection h with h
        subst h
        have hres : res.2 = false := by
          by_contra hcon
          rw [if_pos (by simpa using hcon)] at hm
          cases hm
        rw [if_neg (by simp [hres])] at hm
        exact ⟨j, le_refl _, by omega, fun m h1 h2 => by omega, fun i _ => rfl,
          Or.inr ⟨rfl, hres, rfl, rfl, hocc, same_key_true hm⟩⟩
      · split at h
        · rw [mod_succ_eq hc] at h
          obtain ⟨s, s1, s2, s3, s4, s5⟩ := ih (a.set ((h0 + j) % c) el) n
            { slot a ((h0 + j) % c) with psl := (slot a ((h0 + j) % c)).psl + 1 } (j + 1)
            (if res.2 = true then res else ((h0 + j) % c, true)) r
            hocc (by rw [List.length_set]; exact hlen) (by omega) h
          refine ⟨s, by omega, by omega, ?_, ?_, ?_⟩
          · intro m h1 h2
            by_cases e : m = j
            · rw [e]; exact hocc
            · have := s3 m (by omega) h2
              rw [slot_set_ne a _ _ el (hother m (by omega) (by omega))] at this
              exact this
          · intro i hi
            rw [s4 i (fun m h1 h2 => hi m (by omega) h2)]
            exact slot_set_ne a _ i el (Ne.symm (hi j (le_refl _) (by omega)))
          · rcases s5 with ⟨t1, t2, t3⟩ | ⟨_, t2, _⟩
            · left
              rw [slot_set_ne a _ _ el (hother s (by omega) (by omega))] at t2
              exact ⟨t1, t2, t3⟩
            · exfalso
              obtain ⟨r1, r2⟩ := res
              cases r2 <;> simp at t2
        · rw [mod_succ_eq hc] at h
          obtain ⟨s, s1, s2, s3, s4, s5⟩ := ih a n { el with psl := el.psl + 1 } (j + 1) res r
            hel hlen (by omega) h
          refine ⟨s, by omega, by omega, ?_, fun i hi => s4 i (fun m h1 h2 => hi m (by omega) h2),
            s5⟩
          intro m h1 h2
          by_cases e : m = j
          · rw [e]; exact hocc
          · exact s3 m (by omega) h2

theorem insert_eq_walk (hash : K → Nat) {t t0 : HashMap K V}
    (h : (if 4 * t.capacity_ < 5 * (t.size_ + 1) then increase_capacity hash t else some t)
      = some t0) (data : K × V) :
    insert hash t data =
      insert_loop data.1 t0.capacity_ t0 ⟨some (data.1, data.2), hash data.1, 0, false⟩
        (hash data.1 % t0.capacity_) (0, false) := by
  have hd : increase_capacity hash t = increase_capacity_with (insertN hash 1) t := by
    unfold increase_capacity insert
    exact increase_capacity_depth hash 1 t
  rw [hd] at h
  unfold insert
  rw [insertN, h]

theorem walk_table {t : HashMap K V} (H : Inv hash t) :
    ∃ t0, (if 4 * t.capacity_ < 5 * (t.size_ + 1) then increase_capacity hash t else some t)
        = some t0 ∧ Inv hash t0 := by
  by_cases hg : 4 * t.capacity_ < 5 * (t.size_ + 1)
  · obtain ⟨t1, e1, e2, _⟩ := increase_capacity_with_spec H 1
    exact ⟨t1, by rw [if_pos hg]; exact e1, e2⟩
  · exact ⟨t, by rw [if_neg hg], H⟩

variable [Inhabited V]

/-- C18 fails as stated for a key that is present: on the reachable table
`one_key`, which needs no resize, the walk of `insert(1, 20)` starts at slot 1
and stops there, at an occupied slot, returning `inserted = false`. -/
theorem C18_counterexample :
    Reachable id_hash one_key ∧ ¬ 4 * one_key.capacity_ < 5 * (one_key.size_ + 1) ∧
      insert id_hash one_key (1, 20) = some (one_key, (1, false)) ∧
      insert_loop 1 one_key.capacity_ one_key ⟨some (1, 20), id_hash 1, 0, false⟩
        (id_hash 1 % one_key.capacity_) (0, false) = some (one_key, (1, false)) ∧
      id_hash 1 % one_key.capacity_ = 1 ∧ (slot one_key.data_ 1).free = false :=
  ⟨one_key_reachable, by decide, by rfl, by rfl, by rfl, by rfl⟩

/-- C18, amended: on a reachable table and for every key `k`, (1) the probe of
`find_` returns within `capacity_` steps, at the `s`-th slot from the home slot
of `k`, every slot before it being occupied and not holding `k`, and that slot
being free or holding `k`; (2) `insert(k, v)` returns, and its walk, on the
table `t0` left by the load-factor test, stops within `t0.capacity_` steps
after passing occupied slots only: at a free slot, which it fills, when `k` is
absent, and at the slot holding `k`, with the table unchanged, when `k` is
present; (3) `erase(k)` returns, and for a present key its backward shift stops
within `capacity_` steps with the gap `s` slots after the slot of `k` and a
following slot whose `psl` is 0 (as that of every free slot is). -/
theorem C18_probing_terminates (hash : K → Nat) (t : HashMap K V) (ht : Reachable hash t)
    (k : K) (v : V) :
    (∃ p s, find_ hash t k = some p ∧ s < t.capacity_ ∧ p = (hash k + s) % t.capacity_ ∧
        (∀ m, m < s → (slot t.data_ ((hash k + m) % t.capacity_)).free = false ∧
          ∀ w, ¬ t.HoldsAt ((hash k + m) % t.capacity_) k w) ∧
        ((slot t.data_ p).free = true ∨ ∃ w, t.HoldsAt p k w)) ∧
      (∃ t0 r s,
        (if 4 * t.capacity_ < 5 * (t.size_ + 1) then increase_capacity hash t else some t)
          = some t0 ∧
        insert hash t (k, v) = some r ∧ s < t0.capacity_ ∧
        (∀ m, m < s → (slot t0.data_ ((hash k + m) % t0.capacity_)).free = false) ∧
        ((¬ t.Present k ∧ r.2.2 = true ∧
            (slot t0.data_ ((hash k + s) % t0.capacity_)).free = true ∧
            (slot r.1.data_ ((hash k + s) % t0.capacity_)).free = false) ∨
          (t.Present k ∧ r.2.2 = false ∧ r.1 = t0 ∧ r.2.1 = (hash k + s) % t0.capacity_ ∧
            ∃ w, t0.HoldsAt ((hash k + s) % t0.capacity_) k w))) ∧
      (∃ t1, erase hash t k = some t1 ∧
        ∀ p w, t.HoldsAt p k w →
          ∃ s, s < t.capacity_ ∧ (slot t1.data_ ((p + s) % t.capacity_)).free = true ∧
            (slot t1.data_ (advance t.capacity_ ((p + s) % t.capacity_))).psl = 0) := by
  have H := ht.inv
  have hc := H.cap_pos
  refine ⟨?_, ?_, ?_⟩
  · -- the probe of find_
    have hex : ∃ p, find_ hash t k = some p := by
      by_cases hp : t.Present k
      · obtain ⟨w, p, hpw⟩ := HashMap.present_iff.1 hp
        exact ⟨p, find__present H hpw⟩
      · obtain ⟨p, h1, _⟩ := find__absent H hp
        exact ⟨p, h1⟩
    obtain ⟨p, hfind⟩ := hex
    have hrun : find_loop (hash k) k t.data_ t.capacity_ t.capacity_
        ((hash k + 0) % t.capacity_) = some p := hfind
    obtain ⟨s, _, s2, s3, s4, s5⟩ :=
      find_loop_trace (hash k) k t.data_ (hash k) hc t.capacity_ 0 p hrun
    refine ⟨p, s, hfind, by omega, s3, ?_, ?_⟩
    · intro m hm
      obtain ⟨h1, h2⟩ := s4 m (Nat.zero_le _) hm
      refine ⟨h1, ?_⟩
      intro w hw
      rcases h2 with h2 | h2
      · exact h2 (H.arr.key_info hw).1.symm
      · exact h2 w hw.2.2
    · rcases s5 with h | ⟨h1, _, w, h3⟩
      · exact Or.inl h
      · refine Or.inr ⟨w, ?_, h1, h3⟩
        rw [s3]
        exact Nat.mod_lt _ hc
  · -- the walk of insert
    obtain ⟨t0, ht0, H0⟩ := walk_table H
    have hwalk := insert_eq_walk hash ht0 (k, v)
    have hex : ∃ r, insert hash t (k, v) = some r ∧ (t.Present k ↔ r.2.2 = false) := by
      by_cases hp : t.Present k
      · obtain ⟨w, p, hpw⟩ := HashMap.present_iff.1 hp
        obtain ⟨t1, loc, e1, _⟩ := insertN_dup H hpw v 0
        exact ⟨(t1, (loc, false)), e1, iff_of_true hp rfl⟩
      · obtain ⟨t1, loc, e1, _⟩ := insertN_fresh H hp v 0
        exact ⟨(t1, (loc, true)), e1, iff_of_false hp (by simp)⟩
    obtain ⟨r, hr, hflag⟩ := hex
    rw [hr] at hwalk
    obtain ⟨a0, c0, n0⟩ := t0
    have hlen : a0.length = c0 := H0.arr.len
    have hc0 : 0 < c0 := H0.cap_pos
    have hrun : insert_loop k c0 ⟨a0, c0, n0⟩ ⟨some (k, v), hash k, 0, false⟩
        ((hash k + 0) % c0) (0, false) = some r := hwalk.symm
    obtain ⟨s, _, s2, s3, _, s5⟩ :=
      insert_loop_trace k (hash k) hc0 c0 a0 n0 _ 0 (0, false) r rfl hlen (by omega) hrun
    refine ⟨⟨a0, c0, n0⟩, r, s, ht0, hr, (by show s < c0; omega),
      fun m hm => s3 m (Nat.zero_le _) hm, ?_⟩
    rcases s5 with ⟨h1, h2, h3⟩ | ⟨h1, _, h3, h4, h5, w, h6⟩
    · refine Or.inl ⟨?_, h1, h2, h3⟩
      intro hp
      have := hflag.1 hp
      rw [h1] at this
      cases this
    · exact Or.inr ⟨hflag.2 h1, h1, h3, h4, w, Nat.mod_lt _ hc0, h5, h6⟩
  · -- the backward shift of erase
    by_cases hp : t.Present k
    · obtain ⟨w0, p0, hp0⟩ := HashMap.present_iff.1 hp
      obtain ⟨t1, e1, _⟩ := erase_present H hp0
      refine ⟨t1, e1, ?_⟩
      intro p w hpw
      have hrun := e1
      unfold erase at hrun
      rw [find__present H hpw] at hrun
      simp only [hpw.2.1, Bool.false_eq_true, if_false] at hrun
      have hmark : slot (t.data_.set p { slot t.data_ p with free := true, psl := 0 }) p
          = { slot t.data_ p with free := true, psl := 0 } :=
        slot_set_eq t.data_ p _ (by rw [H.arr.len]; exact hpw.1)
      have hp0eq : (p + 0) % t.capacity_ = p := by
        rw [Nat.add_zero, Nat.mod_eq_of_lt hpw.1]
      split at hrun
      · cases hrun
      · rename_i a1 hloop
        injection hrun with hrun
        subst hrun
        obtain ⟨s, _, s2, s3, s4⟩ := erase_loop_trace p hc t.capacity_
          (t.data_.set p { slot t.data_ p with free := true, psl := 0 }) 0 a1
          (by rw [List.length_set]; exact H.arr.len)
          (by rw [hp0eq, hmark]) (by rw [hp0eq, hmark]) (by rw [hp0eq]; exact hloop)
        exact ⟨s, by omega, s3, s4⟩
    · refine ⟨t, erase_absent H hp, ?_⟩
      intro p w hpw
      exact absurd (HashMap.present_iff.2 ⟨w, p, hpw⟩) hp

/-- C18 (amended) at the table `three_keys` and its key 2, which the probe
finds two slots after its home slot. -/
theorem C18_witness :
    Reachable id_hash three_keys ∧
      (∃ p s, find_ id_hash three_keys 2 = some p ∧ s < three_keys.capacity_ ∧
          p = (id_hash 2 + s) % three_keys.capacity_ ∧
          (∀ m, m < s →
            (slot three_keys.data_ ((id_hash 2 + m) % three_keys.capacity_)).free = false ∧
            ∀ w, ¬ three_keys.HoldsAt ((id_hash 2 + m) % three_keys.capacity_) 2 w) ∧
          ((slot three_keys.data_ p).free = true ∨ ∃ w, three_keys.HoldsAt p 2 w)) ∧
        (∃ t0 r s,
          (if 4 * three_keys.capacity_ < 5 * (three_keys.size_ + 1)
            then increase_capacity id_hash three_keys else some three_keys) = some t0 ∧
          insert id_hash three_keys (2, 7) = some r ∧ s < t0.capacity_ ∧
          (∀ m, m < s → (slot t0.data_ ((id_hash 2 + m) % t0.capacity_)).free = false) ∧
          ((¬ three_keys.Present 2 ∧ r.2.2 = true ∧
              (slot t0.data_ ((id_hash 2 + s) % t0.capacity_)).free = true ∧
              (slot r.1.data_ ((id_hash 2 + s) % t0.capacity_)).free = false) ∨
            (three_keys.Present 2 ∧ r.2.2 = false ∧ r.1 = t0 ∧
              r.2.1 = (id_hash 2 + s) % t0.capacity_ ∧
              ∃ w, t0.HoldsAt ((id_hash 2 + s) % t0.capacity_) 2 w))) ∧
        (∃ t1, erase id_hash three_keys 2 = some t1 ∧
          ∀ p w, three_keys.HoldsAt p 2 w →
            ∃ s, s < three_keys.capacity_ ∧
              (slot t1.data_ ((p + s) % three_keys.capacity_)).free = true ∧
              (slot t1.data_
                (advance three_keys.capacity_ ((p + s) % three_keys.capacity_))).psl = 0) :=
  ⟨three_keys_reachable, C18_probing_terminates id_hash three_keys three_keys_reachable 2 7⟩

end Traces

end RobinHood
